import Mathlib

/-!
# Payload executor: instruction codec and execution model

A shallow embedding of `rowhammer_tester/gateware/payload_executor.py`:
the instruction encoder (`Encoder`), the combinational instruction decoder
(`Decoder`), the scratchpad, the DFI bus switch and the payload executor
finite state machine, together with theorems settling the specification
claims about them.

All machine words are modelled as `Nat` with explicit `% 2^w` reductions
at the points where the hardware truncates.
-/

deriving instance DecidableEq for Except

/-- Op codes, from `class OpCode(IntEnum)`. -/
inductive OpCode
  | NOOP
  | LOOP
  | ACT
  | PRE
  | REF
  | ZQC
  | READ
deriving DecidableEq, Repr

/-- The numeric value of each op code (`NOOP = 0b000`, `LOOP = 0b111`,
`ACT = 0b100`, `PRE = 0b101`, `REF = 0b110`, `ZQC = 0b001`, `READ = 0b010`). -/
def OpCode.val : OpCode → Nat
  | .NOOP => 0b000
  | .LOOP => 0b111
  | .ACT => 0b100
  | .PRE => 0b101
  | .REF => 0b110
  | .ZQC => 0b001
  | .READ => 0b010

/-- The DFI-mappable op codes (everything except `NOOP` and `LOOP`). -/
def OpCode.isDfi : OpCode → Bool
  | .NOOP => false
  | .LOOP => false
  | _ => true

namespace Decoder

/-- Field widths, from the `Decoder` class constants. -/
def INSTRUCTION : Nat := 32

def OP_CODE : Nat := 3

def TIMESLICE : Nat := 5

def ADDRESS : Nat := 24

def TIMESLICE_NOOP : Nat := TIMESLICE + ADDRESS

def LOOP_COUNT : Nat := 12

def LOOP_JUMP : Nat := 17

/-- `instruction[:OP_CODE]`: the low 3 bits of the word. -/
def op_code (w : Nat) : Nat := w % 2 ^ OP_CODE

/-- `tail = instruction[OP_CODE:]`: the upper 29 bits of the 32-bit word. -/
def tail (w : Nat) : Nat := w / 2 ^ OP_CODE % 2 ^ TIMESLICE_NOOP

/-- The decoded timeslice: `tail[:TIMESLICE_NOOP]` for `NOOP`,
`tail[:TIMESLICE]` for every other op code. -/
def timeslice (w : Nat) : Nat :=
  if op_code w = OpCode.NOOP.val then tail w % 2 ^ TIMESLICE_NOOP
  else tail w % 2 ^ TIMESLICE

/-- The decoded address: `tail[TIMESLICE:]`. -/
def address (w : Nat) : Nat := tail w / 2 ^ TIMESLICE % 2 ^ ADDRESS

/-- The decoded loop count: `tail[:LOOP_COUNT]`. -/
def loop_count (w : Nat) : Nat := tail w % 2 ^ LOOP_COUNT

/-- The decoded loop jump: `tail[LOOP_COUNT:]`. -/
def loop_jump (w : Nat) : Nat := tail w / 2 ^ LOOP_COUNT % 2 ^ LOOP_JUMP

/-- The `stop` predicate: `op_code == NOOP && timeslice == 0`. -/
def stop (w : Nat) : Prop := op_code w = OpCode.NOOP.val ∧ timeslice w = 0

instance (w : Nat) : Decidable (stop w) := by unfold stop; infer_instance

end Decoder

namespace Encoder

/-- The keyword arguments accepted by `Encoder.Instruction.__init__`;
`none` models an absent keyword. -/
structure Kwargs where
  count : Option Nat := none
  jump : Option Nat := none
  timeslice : Option Nat := none
  address : Option Nat := none
deriving DecidableEq, Repr

/-- An `Encoder.Instruction`: the `(width, value)` part list of the base
word (`_parts`) together with the part lists of the trailing NOOP words
(`_noops`, empty when the attribute is not set). -/
structure Instruction where
  parts : List (Nat × Nat)
  noops : List (List (Nat × Nat))
deriving DecidableEq, Repr

/-- The NOOP wait values generated by
`for i in range(0, remaining, Decoder.TIMESLICE_NOOP - 1):
   wait = min(remaining - i, Decoder.TIMESLICE_NOOP - 1)`;
the Python `range` visits `i = step * k` for the `⌈remaining / step⌉`
values `k = 0, 1, …` with `step * k < remaining`. -/
def noopChunks (remaining : Nat) : List Nat :=
  (List.range ((remaining + (Decoder.TIMESLICE_NOOP - 1) - 1) / (Decoder.TIMESLICE_NOOP - 1))).map
    fun k =>
      min (remaining - (Decoder.TIMESLICE_NOOP - 1) * k) (Decoder.TIMESLICE_NOOP - 1)

/-- `Encoder.Instruction.__init__`: validates the keyword arguments and
builds the part lists.  `Except.error` models a raised exception (a failed
`assert` or a `KeyError` on a missing required keyword). -/
def mkInstruction (op : OpCode) (kw : Kwargs) : Except String Instruction :=
  match op with
  | .LOOP =>
    match kw.count with
    | none => .error "KeyError: count"
    | some count =>
      if count < 2 ^ Decoder.LOOP_COUNT then
        match kw.jump with
        | none => .error "KeyError: jump"
        | some jump =>
          .ok ⟨[(Decoder.OP_CODE, OpCode.LOOP.val),
                (Decoder.LOOP_COUNT, count),
                (Decoder.LOOP_JUMP, jump)], []⟩
      else .error "LOOP count exceeded max value"
  | .NOOP =>
    match kw.timeslice with
    | none => .error "KeyError: timeslice"
    | some ts =>
      if ts < 2 ^ Decoder.TIMESLICE_NOOP then
        .ok ⟨[(Decoder.OP_CODE, OpCode.NOOP.val),
              (Decoder.TIMESLICE_NOOP, ts)], []⟩
      else .error "Timeslice exceeded max value"
  | _ =>
    match kw.timeslice with
    | none => .error "KeyError: timeslice"
    | some ts =>
      if ts = 0 then .error "Timeslice for instructions other than NOOP should be > 0"
      else if kw.address = none ∧ op ≠ .REF then .error "instruction requires address"
      else
        let base := max (ts &&& (2 ^ Decoder.TIMESLICE - 1)) 1
        .ok ⟨[(Decoder.OP_CODE, op.val),
              (Decoder.TIMESLICE, base),
              (Decoder.ADDRESS, kw.address.getD 0)],
             if base ≠ ts then
               (noopChunks (ts - base)).map fun wait =>
                 [(Decoder.OP_CODE, OpCode.NOOP.val),
                  (Decoder.TIMESLICE_NOOP, wait)]
             else []⟩

/-- The packing loop of `encode_spec`:
`instr |= (val & mask) << n; n += width`. -/
def packParts (ps : List (Nat × Nat)) : Nat :=
  (ps.foldl
    (fun acc wv => (acc.1 ||| (wv.2 &&& (2 ^ wv.1 - 1)) <<< acc.2, acc.2 + wv.1))
    (0, 0)).1

/-- `Encoder.encode_spec`: one 32-bit word per part list, the base word
first, the trailing NOOP words after it. -/
def encode_spec (spec : Instruction) : List Nat :=
  (spec.parts :: spec.noops).map packParts

/-- `Encoder.encode`: build the `Instruction` and encode it. -/
def encode (op : OpCode) (kw : Kwargs) : Except String (List Nat) :=
  (mkInstruction op kw).map encode_spec

/-- `Encoder.encode_payload`: concatenation of the encodings. -/
def encode_payload (payload : List Instruction) : List Nat :=
  payload.flatMap encode_spec

end Encoder

namespace Scratchpad

/-- Registered state of the `Scratchpad` module: the write cursor
(`counter`) and the sticky `overflow` flag. -/
structure State where
  counter : Nat
  overflow : Bool
deriving DecidableEq, Repr

/-- One clock edge of the scratchpad counter logic.  `depth` is
`mem.depth`; `we` is `reduce(or_, wr_port.we)` — a read-data write this
cycle; `reset` is the `ResetInserter` reset, which forces both registers
to their reset values. -/
def step (depth : Nat) (s : State) (we reset : Bool) : State :=
  if reset then ⟨0, false⟩
  else if we then
    if s.counter = depth - 1 then ⟨0, true⟩
    else ⟨s.counter + 1, s.overflow⟩
  else s

end Scratchpad

namespace DFISwitch

/-- The two FSM states of the bus switch (`MEMORY-CONTROLLER` and
`PAYLOAD-EXECUTION`). -/
inductive FsmState
  | MEMORY_CONTROLLER
  | PAYLOAD_EXECUTION
deriving DecidableEq, Repr

/-- `refresh_matches`: `at_refresh == 0 | at_refresh == refresh_counter + 1`. -/
def refresh_matches (at_refresh refresh_counter : Nat) : Prop :=
  at_refresh = 0 ∨ at_refresh = refresh_counter + 1

instance (a r : Nat) : Decidable (refresh_matches a r) := by
  unfold refresh_matches; infer_instance

/-- One clock edge of the bus-switch FSM.  `with_refresh` is the
construction parameter; `wants_dfi` comes from the executor, `refresh` is
the refresh counter's combinational detect for this cycle,
`refresh_counter` and `at_refresh` are the current register values. -/
def step (with_refresh : Bool) (s : FsmState) (wants_dfi refresh : Bool)
    (refresh_counter at_refresh : Nat) : FsmState :=
  match s with
  | .MEMORY_CONTROLLER =>
    if wants_dfi then
      if with_refresh then
        if refresh = true ∧ refresh_matches at_refresh refresh_counter then
          .PAYLOAD_EXECUTION
        else .MEMORY_CONTROLLER
      else .PAYLOAD_EXECUTION
    else .MEMORY_CONTROLLER
  | .PAYLOAD_EXECUTION =>
    if wants_dfi = false then .MEMORY_CONTROLLER else .PAYLOAD_EXECUTION

/-- The combinational `refresher_reset` output: driven only in
`PAYLOAD-EXECUTION` when `wants_dfi` has dropped. -/
def refresher_reset (s : FsmState) (wants_dfi : Bool) : Prop :=
  s = .PAYLOAD_EXECUTION ∧ wants_dfi = false

/-- The combinational `dfi_ready` output. -/
def dfi_ready (s : FsmState) : Prop := s = .PAYLOAD_EXECUTION

end DFISwitch

namespace PayloadExecutor

def PIPELINE_DELAY : Nat := 2

/-- The five FSM states of the executor. -/
inductive FsmState
  | READY
  | WAIT_DFI
  | RUN
  | IDLE
  | BUBBLE
deriving DecidableEq, Repr

/-- Registered state of the executor, its fetcher, the synchronous
payload-memory read port (`mem_dat`), and the instruction register.
`mem_dat_addr` and `instruction_addr` are ghost bookkeeping (not hardware
registers): they mirror, stage for stage, the address whose word currently
sits in `mem_dat` and in `instruction`. -/
structure Exec where
  fsm : FsmState
  program_counter : Nat
  program_counter_old : Nat
  mem_dat : Nat
  instruction : Nat
  loop_counter : Nat
  idle_counter : Nat
  wants_dfi : Bool
  mem_dat_addr : Nat
  instruction_addr : Nat
deriving DecidableEq, Repr

/-- The combinational `stall` signal: asserted in `READY`, `WAIT-DFI` and
`IDLE` (`RUN` and `BUBBLE` leave it low). -/
def stall (s : Exec) : Bool :=
  match s.fsm with
  | .READY | .WAIT_DFI | .IDLE => true
  | _ => false

/-- The fetcher's memory-address mux: `program_counter_old` during a
stall, `program_counter` otherwise. -/
def mem_addr (s : Exec) : Nat :=
  if stall s then s.program_counter_old else s.program_counter

/-- `reset_pc`, asserted by the FSM in `READY`. -/
def reset_pc (s : Exec) : Bool :=
  match s.fsm with
  | .READY => true
  | _ => false

/-- The `RUN`-state termination condition:
`((mem_addr == PIPELINE_DELAY - 1) | stop) &
 ((op_code != LOOP) | (loop_count == loop_counter))`. -/
def terminationCond (s : Exec) : Prop :=
  (mem_addr s = PIPELINE_DELAY - 1 ∨ Decoder.stop s.instruction) ∧
  (Decoder.op_code s.instruction ≠ OpCode.LOOP.val ∨
    Decoder.loop_count s.instruction = s.loop_counter)

instance (s : Exec) : Decidable (terminationCond s) := by
  unfold terminationCond; infer_instance

/-- The combinational `jump` strobe: driven only in `RUN`, on a LOOP whose
iterations are not yet finished and which does not terminate execution. -/
def jump (s : Exec) : Prop :=
  s.fsm = .RUN ∧ ¬ terminationCond s ∧
  Decoder.op_code s.instruction = OpCode.LOOP.val ∧
  s.loop_counter ≠ Decoder.loop_count s.instruction

instance (s : Exec) : Decidable (jump s) := by
  unfold jump; infer_instance

/-- The fetcher's `next_addr`:
`pc + 1`, or `pc - jump_offset - pipeline_delay` on a jump, wrapped to the
width of the program counter (`memBits` bits, the payload depth being
`2 ^ memBits`); `jump_offset` is wired to `decoder.loop_jump`. -/
def next_addr (memBits : Nat) (s : Exec) : Nat :=
  if jump s then
    (((s.program_counter : Int) - Decoder.loop_jump s.instruction - PIPELINE_DELAY) %
      ((2 : Int) ^ memBits)).toNat
  else (s.program_counter + 1) % 2 ^ memBits

/-- One clock edge of the executor.  `mem` is the payload memory content,
`start` and `dfi_ready` the module inputs for this cycle.  The fetcher,
the synchronous memory port, the instruction register and the FSM all
commit simultaneously. -/
def step (memBits : Nat) (mem : Nat → Nat) (start dfi_ready : Bool) (s : Exec) : Exec :=
  let pc' := if stall s = false then next_addr memBits s
             else if reset_pc s then 0 else s.program_counter
  let pcOld' := if stall s = false then s.program_counter
                else if reset_pc s then 0 else s.program_counter_old
  let base : Exec :=
    { fsm := s.fsm
      program_counter := pc'
      program_counter_old := pcOld'
      mem_dat := mem (mem_addr s)
      instruction := if stall s = false then s.mem_dat else s.instruction
      loop_counter := s.loop_counter
      idle_counter := s.idle_counter
      wants_dfi := s.wants_dfi
      mem_dat_addr := mem_addr s
      instruction_addr := if stall s = false then s.mem_dat_addr else s.instruction_addr }
  match s.fsm with
  | .READY =>
    if start then { base with fsm := .WAIT_DFI, wants_dfi := true } else base
  | .WAIT_DFI =>
    if dfi_ready then { base with fsm := .BUBBLE, idle_counter := PIPELINE_DELAY - 1 }
    else base
  | .RUN =>
    if terminationCond s then { base with fsm := .READY, wants_dfi := false }
    else if Decoder.op_code s.instruction = OpCode.LOOP.val then
      if s.loop_counter ≠ Decoder.loop_count s.instruction then
        { base with
            fsm := .BUBBLE
            loop_counter := (s.loop_counter + 1) % 2 ^ Decoder.LOOP_COUNT
            idle_counter := PIPELINE_DELAY - 1 }
      else { base with loop_counter := 0 }
    else
      if Decoder.timeslice s.instruction = 0 ∨ Decoder.timeslice s.instruction = 1 then
        base
      else
        { base with
            fsm := .IDLE
            idle_counter := Decoder.timeslice s.instruction - 2 }
  | .IDLE =>
    if s.idle_counter = 0 then { base with fsm := .RUN }
    else { base with idle_counter := s.idle_counter - 1 }
  | .BUBBLE =>
    if s.idle_counter = 0 then { base with fsm := .RUN }
    else { base with idle_counter := s.idle_counter - 1 }

/-- The scratchpad reset line, driven by the FSM only in `WAIT-DFI`. -/
def scratchpad_reset (s : Exec) : Bool :=
  match s.fsm with
  | .WAIT_DFI => true
  | _ => false

/-- `n` cycles of execution with quiescent `start`/`dfi_ready` inputs. -/
def run (memBits : Nat) (mem : Nat → Nat) (s : Exec) : Nat → Exec
  | 0 => s
  | n + 1 => step memBits mem false false (run memBits mem s n)

/-- The executor processes the instruction at address `a` in this cycle: a
`RUN` cycle whose instruction register holds the word fetched from `a`. -/
def executesAt (s : Exec) (a : Nat) : Prop :=
  s.fsm = .RUN ∧ s.instruction_addr = a

instance (s : Exec) (a : Nat) : Decidable (executesAt s a) := by
  unfold executesAt; infer_instance

/-- Number of cycles `t < n` of the trace `tr` that execute address `a`. -/
def countExec (tr : Nat → Exec) (a : Nat) : Nat → Nat
  | 0 => 0
  | n + 1 => countExec tr a n + if executesAt (tr n) a then 1 else 0

/-- Steady fetch pipeline on a `RUN` cycle processing address `a`: the
program counter has advanced `PIPELINE_DELAY` words past `a`, the port
register holds the word of `a + 1` and the instruction register the word
of `a`. -/
def steadyAt (mem : Nat → Nat) (s : Exec) (a : Nat) : Prop :=
  s.fsm = .RUN ∧
  s.program_counter = a + 2 ∧
  s.program_counter_old = a + 1 ∧
  s.mem_dat = mem (a + 1) ∧
  s.mem_dat_addr = a + 1 ∧
  s.instruction = mem a ∧
  s.instruction_addr = a

end PayloadExecutor

/-- The domain of valid instructions, as claim C1 (amended) delimits it:
LOOP needs `count < 2^12` and (the amendment) `jump < 2^17`; NOOP needs
`timeslice < 2^29`; a DFI op code needs `1 ≤ timeslice ≤ 31` and a 24-bit
address. -/
def ValidInstrC1 (op : OpCode) (kw : Encoder.Kwargs) : Prop :=
  match op with
  | .LOOP => ∃ c j, kw.count = some c ∧ kw.jump = some j ∧ c < 2 ^ 12 ∧ j < 2 ^ 17
  | .NOOP => ∃ t, kw.timeslice = some t ∧ t < 2 ^ 29
  | _ => ∃ t a, kw.timeslice = some t ∧ kw.address = some a ∧ 1 ≤ t ∧ t ≤ 31 ∧ a < 2 ^ 24

/-- The decoder's combinational field extraction recovers the fields of
the instruction that was encoded. -/
def DecodeRecovers (op : OpCode) (kw : Encoder.Kwargs) (w : Nat) : Prop :=
  Decoder.op_code w = op.val ∧
  match op with
  | .LOOP => Decoder.loop_count w = kw.count.getD 0 ∧ Decoder.loop_jump w = kw.jump.getD 0
  | .NOOP => Decoder.timeslice w = kw.timeslice.getD 0
  | _ => Decoder.timeslice w = kw.timeslice.getD 0 ∧ Decoder.address w = kw.address.getD 0

/-- The error conditions exactly as claim C6 lists them. -/
def ErrorsPerClaimC6 (op : OpCode) (kw : Encoder.Kwargs) : Prop :=
  (op = .LOOP ∧ ∃ c, kw.count = some c ∧ 2 ^ 12 ≤ c) ∨
  (op = .NOOP ∧ ∃ t, kw.timeslice = some t ∧ 2 ^ 29 ≤ t) ∨
  (op.isDfi = true ∧ kw.timeslice = some 0) ∨
  ((op = .ACT ∨ op = .PRE ∨ op = .ZQC ∨ op = .READ) ∧ kw.address = none)

/-- The additional error conditions the code exhibits: a required keyword
that is absent raises a `KeyError` before any validation can run. -/
def MissingKwargC6 (op : OpCode) (kw : Encoder.Kwargs) : Prop :=
  (op = .LOOP ∧ (kw.count = none ∨
    ∃ c, kw.count = some c ∧ c < 2 ^ 12 ∧ kw.jump = none)) ∨
  (op = .NOOP ∧ kw.timeslice = none) ∨
  (op.isDfi = true ∧ kw.timeslice = none)

/-- The concrete payload for the C4 counterexample:
`ACT ts=1 addr=0` (word 12) at address 0, `PRE ts=1 addr=0` (word 13) at
address 1, `LOOP count=1 jump=1` (word 32783) at address 2, `STOP`
(word 0) at address 3. -/
def memC4 : Nat → Nat := fun a => [12, 13, 32783, 0].getD a 0

/-- A full run of the executor over `memC4` in a depth-8 payload memory:
`start` pulsed on the first cycle, `dfi_ready` held high. -/
def traceC4 : Nat → PayloadExecutor.Exec
  | 0 => ⟨.READY, 0, 0, 0, 0, 0, 0, false, 0, 0⟩
  | n + 1 => PayloadExecutor.step 3 memC4 (n == 0) true (traceC4 n)

/-- The concrete payload for the C4 witness: `ACT ts=1` at address 0,
`PRE ts=1` at address 1, `LOOP count=2 jump=2` (word 65559) at address 2,
`STOP` at address 3. -/
def memW4 : Nat → Nat := fun a => [12, 13, 65559, 0].getD a 0

namespace Encoder

/-- Packing a value into a slot whose low `n` bits are already occupied by
`a < 2 ^ n` is plain addition. -/
theorem lor_shiftLeft_eq_add {a : Nat} (v : Nat) {n : Nat} (h : a < 2 ^ n) :
    a ||| v <<< n = a + v * 2 ^ n := by
  rw [Nat.shiftLeft_eq, Nat.or_comm, mul_comm v (2 ^ n), ← Nat.mul_add_lt_is_or h v,
    Nat.add_comm]

/-- Two fields of widths `w1, w2`, each below its width bound, pack below
`2 ^ (w1 + w2)`. -/
theorem two_fields_lt {a b w1 w2 : Nat} (ha : a < 2 ^ w1) (hb : b < 2 ^ w2) :
    a + b * 2 ^ w1 < 2 ^ (w1 + w2) := by
  have hb1 : (b + 1) * 2 ^ w1 ≤ 2 ^ w2 * 2 ^ w1 := Nat.mul_le_mul_right _ hb
  rw [add_mul, one_mul] at hb1
  rw [pow_add, mul_comm (2 ^ w1) (2 ^ w2)]
  omega

theorem packParts_two (w1 v1 w2 v2 : Nat) :
    packParts [(w1, v1), (w2, v2)] =
      v1 % 2 ^ w1 + v2 % 2 ^ w2 * 2 ^ w1 := by
  simp only [packParts, List.foldl_cons, List.foldl_nil,
    Nat.and_pow_two_sub_one_eq_mod, Nat.shiftLeft_zero, Nat.zero_or, Nat.zero_add]
  rw [lor_shiftLeft_eq_add _ (Nat.mod_lt _ (Nat.two_pow_pos w1))]

theorem packParts_three (w1 v1 w2 v2 w3 v3 : Nat) :
    packParts [(w1, v1), (w2, v2), (w3, v3)] =
      v1 % 2 ^ w1 + v2 % 2 ^ w2 * 2 ^ w1 + v3 % 2 ^ w3 * 2 ^ (w1 + w2) := by
  have h2 : v1 % 2 ^ w1 + v2 % 2 ^ w2 * 2 ^ w1 < 2 ^ (w1 + w2) :=
    two_fields_lt (Nat.mod_lt _ (Nat.two_pow_pos w1)) (Nat.mod_lt _ (Nat.two_pow_pos w2))
  simp only [packParts, List.foldl_cons, List.foldl_nil,
    Nat.and_pow_two_sub_one_eq_mod, Nat.shiftLeft_zero, Nat.zero_or, Nat.zero_add]
  rw [lor_shiftLeft_eq_add _ (Nat.mod_lt _ (Nat.two_pow_pos w1))]
  rw [lor_shiftLeft_eq_add _ h2]

/-- The partial packing accumulator stays below `2 ^ (bits consumed)`. -/
theorem packParts_foldl_lt (ps : List (Nat × Nat)) :
    ∀ acc n, acc < 2 ^ n →
      (ps.foldl
        (fun acc wv => (acc.1 ||| (wv.2 &&& (2 ^ wv.1 - 1)) <<< acc.2, acc.2 + wv.1))
        (acc, n)).1 < 2 ^ (n + (ps.map Prod.fst).sum) := by
  induction ps with
  | nil => intro acc n h; simpa using h
  | cons wv rest ih =>
    intro acc n h
    simp only [List.foldl_cons, List.map_cons, List.sum_cons]
    have hstep : acc ||| (wv.2 &&& (2 ^ wv.1 - 1)) <<< n < 2 ^ (n + wv.1) := by
      rw [Nat.and_pow_two_sub_one_eq_mod, lor_shiftLeft_eq_add _ h]
      exact two_fields_lt h (Nat.mod_lt _ (Nat.two_pow_pos wv.1))
    have := ih _ _ hstep
    simpa [Nat.add_assoc, Nat.add_comm, Nat.add_left_comm] using this

theorem packParts_lt (ps : List (Nat × Nat)) :
    packParts ps < 2 ^ ((ps.map Prod.fst).sum) := by
  have := packParts_foldl_lt ps 0 0 (by simp)
  simpa [packParts] using this

/-- Closed numeric form of the packed LOOP word. -/
theorem packLoop (c j : Nat) :
    packParts [(Decoder.OP_CODE, OpCode.LOOP.val),
      (Decoder.LOOP_COUNT, c), (Decoder.LOOP_JUMP, j)] =
      7 + c % 4096 * 8 + j % 131072 * 32768 := by
  rw [packParts_three]
  norm_num [Decoder.OP_CODE, Decoder.LOOP_COUNT, Decoder.LOOP_JUMP, OpCode.val]

/-- Closed numeric form of the packed NOOP word. -/
theorem packNoop (t : Nat) :
    packParts [(Decoder.OP_CODE, OpCode.NOOP.val), (Decoder.TIMESLICE_NOOP, t)] =
      t % 536870912 * 8 := by
  rw [packParts_two]
  norm_num [Decoder.OP_CODE, Decoder.TIMESLICE_NOOP, Decoder.TIMESLICE,
    Decoder.ADDRESS, OpCode.val]

/-- Closed numeric form of the packed DFI word. -/
theorem packDfi (v base a : Nat) :
    packParts [(Decoder.OP_CODE, v), (Decoder.TIMESLICE, base), (Decoder.ADDRESS, a)] =
      v % 8 + base % 32 * 8 + a % 16777216 * 256 := by
  rw [packParts_three]
  norm_num [Decoder.OP_CODE, Decoder.TIMESLICE, Decoder.ADDRESS]

theorem noopChunks_zero : noopChunks 0 = [] := rfl

theorem noopChunks_cons {r : Nat} (h : r ≠ 0) :
    noopChunks r = min r 28 :: noopChunks (r - 28) := by
  unfold noopChunks
  simp only [show Decoder.TIMESLICE_NOOP - 1 = 28 from rfl]
  have hcnt : (r + 28 - 1) / 28 = (r - 28 + 28 - 1) / 28 + 1 := by omega
  rw [hcnt, List.range_succ_eq_map, List.map_cons, List.map_map]
  congr 1
  apply List.map_congr_left
  intro k _
  show min (r - 28 * (k + 1)) 28 = min (r - 28 - 28 * k) 28
  omega

theorem noopChunks_sum (r : Nat) : (noopChunks r).sum = r := by
  induction r using Nat.strong_induction_on with
  | _ r ih =>
    by_cases h : r = 0
    · subst h; rfl
    · rw [noopChunks_cons h, List.sum_cons, ih (r - 28) (by omega)]
      omega

theorem noopChunks_mem {r c : Nat} (h : c ∈ noopChunks r) : 1 ≤ c ∧ c ≤ 28 := by
  induction r using Nat.strong_induction_on with
  | _ r ih =>
    by_cases hr : r = 0
    · subst hr; simp [noopChunks_zero] at h
    · rw [noopChunks_cons hr] at h
      rcases List.mem_cons.mp h with h | h
      · omega
      · exact ih (r - 28) (by omega) h

end Encoder

namespace Decoder

/-- Decoding the packed LOOP word recovers both loop fields. -/
theorem decode_loop_word {c j : Nat} (hc : c < 2 ^ 12) (hj : j < 2 ^ 17) :
    op_code (7 + c * 8 + j * 32768) = 7 ∧
    loop_count (7 + c * 8 + j * 32768) = c ∧
    loop_jump (7 + c * 8 + j * 32768) = j := by
  unfold op_code loop_count loop_jump tail
  unfold OP_CODE TIMESLICE_NOOP TIMESLICE ADDRESS LOOP_COUNT LOOP_JUMP
  norm_num at hc hj ⊢
  omega

/-- Decoding the packed NOOP word recovers the 29-bit timeslice. -/
theorem decode_noop_word {t : Nat} (ht : t < 2 ^ 29) :
    op_code (t * 8) = 0 ∧ timeslice (t * 8) = t := by
  have hop : op_code (t * 8) = 0 := by
    unfold op_code OP_CODE; omega
  refine ⟨hop, ?_⟩
  unfold timeslice
  rw [hop]
  simp only [OpCode.val, if_pos rfl]
  unfold tail OP_CODE TIMESLICE_NOOP TIMESLICE ADDRESS
  norm_num at ht ⊢
  omega

/-- Decoding the packed DFI word recovers the 5-bit timeslice and the
24-bit address; the decoded op code is nonzero, so the word is not a stop. -/
theorem decode_dfi_word {v base a : Nat} (hv : v < 8) (hv0 : v ≠ 0)
    (hb : base < 32) (ha : a < 2 ^ 24) :
    op_code (v + base * 8 + a * 256) = v ∧
    timeslice (v + base * 8 + a * 256) = base ∧
    address (v + base * 8 + a * 256) = a := by
  have hop : op_code (v + base * 8 + a * 256) = v := by
    unfold op_code OP_CODE; omega
  refine ⟨hop, ?_, ?_⟩
  · unfold timeslice
    rw [hop]
    simp only [OpCode.val, if_neg hv0]
    unfold tail OP_CODE TIMESLICE_NOOP TIMESLICE ADDRESS
    norm_num at ha ⊢
    omega
  · unfold address tail
    unfold OP_CODE TIMESLICE_NOOP TIMESLICE ADDRESS
    norm_num at ha ⊢
    omega

end Decoder

theorem OpCode.val_lt (op : OpCode) : op.val < 8 := by
  cases op <;> decide

theorem OpCode.val_ne_zero {op : OpCode} (h : op.isDfi = true) : op.val ≠ 0 := by
  cases op <;> first
    | exact absurd h (by decide)
    | decide

namespace Encoder

/-- The DFI arm of `Instruction.__init__` in closed form: for a DFI op code
with a nonzero timeslice and a satisfied address requirement, the spec holds
the base parts and (iff the masked timeslice differs from the requested one)
the trailing NOOP parts. -/
theorem mkInstruction_dfi (op : OpCode) (hdfi : op.isDfi = true)
    (kw : Kwargs) (t : Nat) (ht : kw.timeslice = some t) (htne : t ≠ 0)
    (haddr : ¬(kw.address = none ∧ op ≠ .REF)) :
    mkInstruction op kw =
      .ok ⟨[(Decoder.OP_CODE, op.val),
            (Decoder.TIMESLICE, max (t &&& (2 ^ Decoder.TIMESLICE - 1)) 1),
            (Decoder.ADDRESS, kw.address.getD 0)],
           if max (t &&& (2 ^ Decoder.TIMESLICE - 1)) 1 ≠ t then
             (noopChunks (t - max (t &&& (2 ^ Decoder.TIMESLICE - 1)) 1)).map
               fun wait =>
                 [(Decoder.OP_CODE, OpCode.NOOP.val),
                  (Decoder.TIMESLICE_NOOP, wait)]
           else []⟩ := by
  cases op <;> first
    | exact absurd hdfi (by decide)
    | (simp only [mkInstruction, ht]
       rw [if_neg htne, if_neg haddr])

/-- Full encoding of a DFI instruction: the base word followed by the
packed trailing NOOP words; when no NOOPs are needed `noopChunks 0 = []`
makes the tail empty. -/
theorem encode_dfi (op : OpCode) (hdfi : op.isDfi = true)
    (kw : Kwargs) (t : Nat) (ht : kw.timeslice = some t) (htne : t ≠ 0)
    (haddr : ¬(kw.address = none ∧ op ≠ .REF)) :
    encode op kw =
      .ok (packParts [(Decoder.OP_CODE, op.val),
              (Decoder.TIMESLICE, max (t % 32) 1),
              (Decoder.ADDRESS, kw.address.getD 0)] ::
            (noopChunks (t - max (t % 32) 1)).map
              fun wait =>
                packParts [(Decoder.OP_CODE, OpCode.NOOP.val),
                  (Decoder.TIMESLICE_NOOP, wait)]) := by
  have hand : t &&& (2 ^ Decoder.TIMESLICE - 1) = t % 32 := by
    rw [Nat.and_pow_two_sub_one_eq_mod]
    norm_num [Decoder.TIMESLICE]
  rw [encode, mkInstruction_dfi op hdfi kw t ht htne haddr, hand]
  simp only [Except.map, encode_spec, List.map_cons]
  by_cases hb : max (t % 32) 1 = t
  · rw [if_neg (show ¬ (max (t % 32) 1 ≠ t) from fun hh => hh hb), hb]
    simp [noopChunks_zero]
  · rw [if_pos hb, List.map_map]
    rfl

/-- A DFI instruction with no `timeslice` keyword raises a `KeyError`. -/
theorem mkInstruction_ts_missing (op : OpCode) (hdfi : op.isDfi = true)
    (kw : Kwargs) (ht : kw.timeslice = none) :
    mkInstruction op kw = .error "KeyError: timeslice" := by
  cases op <;> first
    | exact absurd hdfi (by decide)
    | simp only [mkInstruction, ht]

/-- A DFI instruction with an explicit zero timeslice fails the
`timeslice != 0` assertion. -/
theorem mkInstruction_ts_zero (op : OpCode) (hdfi : op.isDfi = true)
    (kw : Kwargs) (ht : kw.timeslice = some 0) :
    mkInstruction op kw =
      .error "Timeslice for instructions other than NOOP should be > 0" := by
  cases op <;> first
    | exact absurd hdfi (by decide)
    | simp [mkInstruction, ht]

end Encoder

/-- The DFI part of the round trip, for any DFI op code. -/
theorem c1_dfi (op : OpCode) (hdfi : op.isDfi = true) (kw : Encoder.Kwargs)
    (t a : Nat) (ht : kw.timeslice = some t) (ha : kw.address = some a)
    (ht1 : 1 ≤ t) (ht31 : t ≤ 31) (halt : a < 2 ^ 24) :
    ∃ w, Encoder.encode op kw = .ok [w] ∧ w < 2 ^ 32 ∧ DecodeRecovers op kw w := by
  have htne : t ≠ 0 := by omega
  have ha' : a < 16777216 := by omega
  have hmax : max (t % 32) 1 = t := by omega
  have henc := Encoder.encode_dfi op hdfi kw t ht htne (by simp [ha])
  rw [hmax, Nat.sub_self, Encoder.noopChunks_zero, List.map_nil, ha,
    Option.getD_some, Encoder.packDfi,
    Nat.mod_eq_of_lt (show op.val < 8 from op.val_lt),
    Nat.mod_eq_of_lt (show t < 32 by omega), Nat.mod_eq_of_lt ha'] at henc
  refine ⟨op.val + t * 8 + a * 256, henc, ?_, ?_⟩
  · have := op.val_lt
    omega
  · have hd := Decoder.decode_dfi_word (v := op.val) op.val_lt (OpCode.val_ne_zero hdfi)
      (show t < 32 by omega) ha'
    obtain ⟨h1, h2, h3⟩ := hd
    cases op <;> first
      | exact absurd hdfi (by decide)
      | exact ⟨h1, by rw [ht]; exact h2, by rw [ha]; exact h3⟩

/-- C1, counterexample: the claim's validity domain constrains a LOOP only
by `count < 2^12`, but encoding a LOOP with `jump = 2^17` truncates the
jump field to 0, so decoding does not recover the jump. -/
theorem c1_counterexample :
    Encoder.encode .LOOP ⟨some 0, some (2 ^ 17), none, none⟩ = .ok [7] ∧
    (0 : Nat) < 2 ^ 12 ∧
    Decoder.loop_jump 7 = 0 ∧ (0 : Nat) ≠ 2 ^ 17 := by decide

/-- C1 (amended): for every valid instruction — where, beyond the claim's
conditions, a LOOP must also have `jump < 2^17` — `Encoder.encode`
produces exactly one word, the word is below `2^32`, and the decoder's
combinational field extraction recovers the op code and all fields. -/
theorem c1_encode_decode_roundtrip (op : OpCode) (kw : Encoder.Kwargs)
    (h : ValidInstrC1 op kw) :
    ∃ w, Encoder.encode op kw = .ok [w] ∧ w < 2 ^ 32 ∧ DecodeRecovers op kw w := by
  cases op
  case LOOP =>
    obtain ⟨c, j, hc, hj, hclt, hjlt⟩ := h
    have hc' : c < 4096 := by omega
    have hj' : j < 131072 := by omega
    refine ⟨7 + c * 8 + j * 32768, ?_, by omega, ?_⟩
    · simp only [Encoder.encode, Encoder.mkInstruction, hc, hj]
      rw [if_pos (show c < 2 ^ Decoder.LOOP_COUNT from hclt)]
      simp only [Except.map, Encoder.encode_spec, List.map_cons, List.map_nil]
      rw [Encoder.packLoop, Nat.mod_eq_of_lt hc', Nat.mod_eq_of_lt hj']
    · have hd := Decoder.decode_loop_word hclt hjlt
      simp only [DecodeRecovers, hc, hj, Option.getD_some]
      exact ⟨hd.1, hd.2.1, hd.2.2⟩
  case NOOP =>
    obtain ⟨t, ht, htlt⟩ := h
    have ht' : t < 536870912 := by omega
    refine ⟨t * 8, ?_, by omega, ?_⟩
    · simp only [Encoder.encode, Encoder.mkInstruction, ht]
      rw [if_pos (show t < 2 ^ Decoder.TIMESLICE_NOOP from htlt)]
      simp only [Except.map, Encoder.encode_spec, List.map_cons, List.map_nil]
      rw [Encoder.packNoop, Nat.mod_eq_of_lt ht']
    · have hd := Decoder.decode_noop_word htlt
      simp only [DecodeRecovers, ht, Option.getD_some]
      exact ⟨hd.1, hd.2⟩
  all_goals {
    obtain ⟨t, a, ht, ha, ht1, ht31, halt⟩ := h
    exact c1_dfi _ (by decide) kw t a ht ha ht1 ht31 halt
  }

/-- C1, witness: the round trip evaluated on a concrete LOOP. -/
theorem c1_encode_decode_roundtrip_witness :
    ValidInstrC1 .LOOP ⟨some 3, some 5, none, none⟩ ∧
    (∃ w, Encoder.encode .LOOP ⟨some 3, some 5, none, none⟩ = .ok [w] ∧
      w < 2 ^ 32 ∧ DecodeRecovers .LOOP ⟨some 3, some 5, none, none⟩ w) :=
  ⟨⟨3, 5, rfl, rfl, by decide, by decide⟩,
   c1_encode_decode_roundtrip _ _ ⟨3, 5, rfl, rfl, by decide, by decide⟩⟩

/-- The word list of an encoded DFI instruction: a base word whose decoded
5-bit timeslice is `max (T % 32) 1`, followed by one packed word per NOOP
chunk. -/
theorem encode_dfi_shape (op : OpCode) (hdfi : op.isDfi = true)
    (kw : Encoder.Kwargs) (T : Nat) (ht : kw.timeslice = some T) (hT : 1 ≤ T)
    (haddr : ¬(kw.address = none ∧ op ≠ .REF)) :
    ∃ w0, Encoder.encode op kw =
        .ok (w0 :: (Encoder.noopChunks (T - max (T % 32) 1)).map (fun c => c * 8)) ∧
      Decoder.op_code w0 = op.val ∧
      Decoder.timeslice w0 = max (T % 32) 1 := by
  have htne : T ≠ 0 := by omega
  have henc := Encoder.encode_dfi op hdfi kw T ht htne haddr
  have hblt : max (T % 32) 1 < 32 := by omega
  have hAlt : kw.address.getD 0 % 16777216 < 2 ^ 24 := by
    have := Nat.mod_lt (kw.address.getD 0) (show 0 < 16777216 by norm_num)
    norm_num
    omega
  rw [Encoder.packDfi, Nat.mod_eq_of_lt op.val_lt, Nat.mod_eq_of_lt hblt] at henc
  have hrest : (Encoder.noopChunks (T - max (T % 32) 1)).map
        (fun wait => Encoder.packParts [(Decoder.OP_CODE, OpCode.NOOP.val),
          (Decoder.TIMESLICE_NOOP, wait)]) =
      (Encoder.noopChunks (T - max (T % 32) 1)).map (fun c => c * 8) := by
    apply List.map_congr_left
    intro c hc
    have hc28 := Encoder.noopChunks_mem hc
    rw [Encoder.packNoop, Nat.mod_eq_of_lt (show c < 536870912 by omega)]
  rw [hrest] at henc
  have hd := Decoder.decode_dfi_word op.val_lt (OpCode.val_ne_zero hdfi) hblt hAlt
  exact ⟨_, henc, hd.1, hd.2.1⟩

/-- Mapping the decoder's timeslice extraction over the packed NOOP tail
gives back the chunk values. -/
theorem noop_tail_timeslices (r : Nat) :
    ((Encoder.noopChunks r).map (fun c => c * 8)).map Decoder.timeslice =
      Encoder.noopChunks r := by
  rw [List.map_map]
  have h : ∀ c ∈ Encoder.noopChunks r, (Decoder.timeslice ∘ fun c => c * 8) c = c := by
    intro c hc
    have hc28 := Encoder.noopChunks_mem hc
    exact (Decoder.decode_noop_word (t := c) (by omega)).2
  rw [List.map_congr_left h]
  exact List.map_id _

/-- C2: for every DFI instruction with requested timeslice `T ≥ 1`, the
encoded word sequence has total duration exactly `T`: the base word
contributes its decoded 5-bit timeslice (0 treated as 1, though the encoder
never emits 0) and each trailing word is a NOOP contributing its decoded
29-bit timeslice, each at most `2^29 - 1`. -/
theorem c2_dfi_duration (op : OpCode) (hdfi : op.isDfi = true)
    (kw : Encoder.Kwargs) (T : Nat) (ht : kw.timeslice = some T) (hT : 1 ≤ T)
    (haddr : ¬(kw.address = none ∧ op ≠ .REF)) :
    ∃ w0 rest, Encoder.encode op kw = .ok (w0 :: rest) ∧
      max (Decoder.timeslice w0) 1 + (rest.map Decoder.timeslice).sum = T ∧
      ∀ w ∈ rest, Decoder.op_code w = OpCode.NOOP.val ∧
        Decoder.timeslice w ≤ 2 ^ 29 - 1 := by
  obtain ⟨w0, henc, hop, hts⟩ := encode_dfi_shape op hdfi kw T ht hT haddr
  refine ⟨w0, _, henc, ?_, ?_⟩
  · rw [hts, noop_tail_timeslices, Encoder.noopChunks_sum]
    omega
  · intro w hw
    obtain ⟨c, hc, rfl⟩ := List.mem_map.mp hw
    have hc28 := Encoder.noopChunks_mem hc
    have hd := Decoder.decode_noop_word (t := c) (by omega)
    refine ⟨hd.1, ?_⟩
    rw [hd.2]
    omega

/-- C2, witness: the duration identity evaluated on `ACT` with
`timeslice = 40`. -/
theorem c2_dfi_duration_witness :
    OpCode.ACT.isDfi = true ∧
    (∃ w0 rest,
      Encoder.encode .ACT ⟨none, none, some 40, some 7⟩ = .ok (w0 :: rest) ∧
      max (Decoder.timeslice w0) 1 + (rest.map Decoder.timeslice).sum = 40 ∧
      ∀ w ∈ rest, Decoder.op_code w = OpCode.NOOP.val ∧
        Decoder.timeslice w ≤ 2 ^ 29 - 1) :=
  ⟨rfl, c2_dfi_duration .ACT rfl _ 40 rfl (by decide) (by simp)⟩

/-- C3, counterexample: the encoder does not clamp an oversized DFI
timeslice to 31; it masks it to its low 5 bits.  `ACT` with
`timeslice = 100` encodes to five words — a base word with timeslice 4
(not 31) and four NOOPs of 28 + 28 + 28 + 12 cycles — not to the claimed
two words. -/
theorem c3_counterexample :
    Encoder.encode .ACT ⟨none, none, some 100, some 0⟩ =
      .ok [36, 224, 224, 224, 96] ∧
    Decoder.timeslice 36 = 4 ∧ (4 : Nat) ≠ 31 ∧
    ([36, 224, 224, 224, 96] : List Nat).length ≠ 2 := by decide

/-- C3 (amended): for a DFI instruction with `T > 31` the base word's
encoded timeslice is `max (T % 32) 1` — the low five bits of `T`, bumped
to 1 when zero, not a clamp to 31 — and the trailing NOOP words, of which
there is at least one, each carry at most 28 cycles and sum to
`T - max (T % 32) 1`.  In particular `ACT` with `timeslice = 100` encodes
to five words: the ACT word with timeslice 4 and NOOPs of 28, 28, 28 and
12 cycles. -/
theorem c3_amended_overflow_split (op : OpCode) (hdfi : op.isDfi = true)
    (kw : Encoder.Kwargs) (T : Nat) (ht : kw.timeslice = some T) (hT : 31 < T)
    (haddr : ¬(kw.address = none ∧ op ≠ .REF)) :
    ∃ w0 rest, Encoder.encode op kw = .ok (w0 :: rest) ∧
      Decoder.timeslice w0 = max (T % 32) 1 ∧
      (rest.map Decoder.timeslice).sum = T - max (T % 32) 1 ∧
      (∀ w ∈ rest, Decoder.op_code w = OpCode.NOOP.val ∧
        Decoder.timeslice w ≤ 28) ∧
      rest ≠ [] := by
  obtain ⟨w0, henc, hop, hts⟩ := encode_dfi_shape op hdfi kw T ht (by omega) haddr
  refine ⟨w0, _, henc, hts, ?_, ?_, ?_⟩
  · rw [noop_tail_timeslices, Encoder.noopChunks_sum]
  · intro w hw
    obtain ⟨c, hc, rfl⟩ := List.mem_map.mp hw
    have hc28 := Encoder.noopChunks_mem hc
    have hd := Decoder.decode_noop_word (t := c) (by omega)
    refine ⟨hd.1, ?_⟩
    rw [hd.2]
    omega
  · rw [Encoder.noopChunks_cons (show T - max (T % 32) 1 ≠ 0 by omega)]
    simp

/-- C3, witness: the amended split evaluated on `ACT` with
`timeslice = 100`, together with the exact five-word encoding. -/
theorem c3_amended_overflow_split_witness :
    Encoder.encode .ACT ⟨none, none, some 100, some 0⟩ =
      .ok [36, 224, 224, 224, 96] ∧
    (∃ w0 rest,
      Encoder.encode .ACT ⟨none, none, some 100, some 0⟩ = .ok (w0 :: rest) ∧
      Decoder.timeslice w0 = max (100 % 32) 1 ∧
      (rest.map Decoder.timeslice).sum = 100 - max (100 % 32) 1 ∧
      (∀ w ∈ rest, Decoder.op_code w = OpCode.NOOP.val ∧
        Decoder.timeslice w ≤ 28) ∧
      rest ≠ []) :=
  ⟨by decide,
   c3_amended_overflow_split .ACT rfl _ 100 rfl (by decide) (by simp)⟩

/-- C6, counterexample: constructing a NOOP with no timeslice keyword at
all raises (`KeyError`), although none of the claim's four error
conditions holds for that input. -/
theorem c6_counterexample :
    (∃ msg, Encoder.encode .NOOP ⟨none, none, none, none⟩ = .error msg) ∧
    ¬ ErrorsPerClaimC6 .NOOP ⟨none, none, none, none⟩ := by
  constructor
  · exact ⟨_, rfl⟩
  · rintro (⟨h, -⟩ | ⟨-, t, ht, -⟩ | ⟨h, -⟩ | ⟨h, -⟩)
    · exact absurd h (by decide)
    · exact absurd ht (by simp)
    · exact absurd h (by decide)
    · rcases h with h | h | h | h <;> exact absurd h (by decide)

/-- C6 (amended): constructing or encoding an instruction errors exactly
when one of the claim's conditions holds **or** a required keyword is
missing: `count`/`jump` for LOOP, `timeslice` for NOOP and for every DFI
op code. -/
theorem c6_amended_error_iff (op : OpCode) (kw : Encoder.Kwargs) :
    (∃ msg, Encoder.encode op kw = .error msg) ↔
      ErrorsPerClaimC6 op kw ∨ MissingKwargC6 op kw := by
  cases op
  case LOOP =>
    rcases hc : kw.count with _ | c
    · simp [Encoder.encode, Encoder.mkInstruction, hc, Except.map,
        ErrorsPerClaimC6, MissingKwargC6, OpCode.isDfi]
    · by_cases hcl : c < 4096
      · rcases hj : kw.jump with _ | j
        · simp [Encoder.encode, Encoder.mkInstruction, hc, hj, hcl, Except.map,
            ErrorsPerClaimC6, MissingKwargC6, OpCode.isDfi, Decoder.LOOP_COUNT]
        · simp [Encoder.encode, Encoder.mkInstruction, hc, hj, hcl, Except.map,
            ErrorsPerClaimC6, MissingKwargC6, OpCode.isDfi, Decoder.LOOP_COUNT]
      · simp [Encoder.encode, Encoder.mkInstruction, hc, hcl, Except.map,
          ErrorsPerClaimC6, MissingKwargC6, OpCode.isDfi, Decoder.LOOP_COUNT]
        omega
  case NOOP =>
    rcases ht : kw.timeslice with _ | t
    · simp [Encoder.encode, Encoder.mkInstruction, ht, Except.map,
        ErrorsPerClaimC6, MissingKwargC6, OpCode.isDfi]
    · by_cases htl : t < 536870912
      · simp [Encoder.encode, Encoder.mkInstruction, ht, htl, Except.map,
          ErrorsPerClaimC6, MissingKwargC6, OpCode.isDfi, Decoder.TIMESLICE_NOOP,
          Decoder.TIMESLICE, Decoder.ADDRESS]
      · simp [Encoder.encode, Encoder.mkInstruction, ht, htl, Except.map,
          ErrorsPerClaimC6, MissingKwargC6, OpCode.isDfi, Decoder.TIMESLICE_NOOP,
          Decoder.TIMESLICE, Decoder.ADDRESS]
        omega
  all_goals {
    rcases ht : kw.timeslice with _ | t
    · simp [Encoder.encode, Encoder.mkInstruction, ht, Except.map,
        ErrorsPerClaimC6, MissingKwargC6, OpCode.isDfi]
    · by_cases ht0 : t = 0
      · subst ht0
        simp [Encoder.encode, Encoder.mkInstruction, ht, Except.map,
          ErrorsPerClaimC6, MissingKwargC6, OpCode.isDfi]
      · rcases ha : kw.address with _ | a
        · simp [Encoder.encode, Encoder.mkInstruction, ht, ha, ht0, Except.map,
            ErrorsPerClaimC6, MissingKwargC6, OpCode.isDfi]
        · simp [Encoder.encode, Encoder.mkInstruction, ht, ha, ht0, Except.map,
            ErrorsPerClaimC6, MissingKwargC6, OpCode.isDfi]
  }

/-- Widths of every part list built by a successful `Instruction.__init__`
sum to exactly 32 bits. -/
theorem mkInstruction_width_sum (op : OpCode) (kw : Encoder.Kwargs)
    (spec : Encoder.Instruction) (h : Encoder.mkInstruction op kw = .ok spec) :
    ∀ ps ∈ spec.parts :: spec.noops, (ps.map Prod.fst).sum = 32 := by
  intro ps hps
  cases op
  case LOOP =>
    rcases hc : kw.count with _ | c
    · simp only [Encoder.mkInstruction, hc] at h
      exact absurd h (by simp)
    · simp only [Encoder.mkInstruction, hc] at h
      split at h
      · rcases hj : kw.jump with _ | j <;> rw [hj] at h
        · exact absurd h (by simp)
        · have hs : spec = _ := (Except.ok.inj h).symm
          subst hs
          rcases List.mem_cons.mp hps with rfl | hps'
          · rfl
          · simp at hps'
      · exact absurd h (by simp)
  case NOOP =>
    rcases ht : kw.timeslice with _ | t
    · simp only [Encoder.mkInstruction, ht] at h
      exact absurd h (by simp)
    · simp only [Encoder.mkInstruction, ht] at h
      split at h
      · have hs : spec = _ := (Except.ok.inj h).symm
        subst hs
        rcases List.mem_cons.mp hps with rfl | hps'
        · rfl
        · simp at hps'
      · exact absurd h (by simp)
  all_goals {
    rcases ht : kw.timeslice with _ | t
    · simp only [Encoder.mkInstruction, ht] at h
      exact absurd h (by simp)
    · simp only [Encoder.mkInstruction, ht] at h
      split at h
      · exact absurd h (by simp)
      · split at h
        · exact absurd h (by simp)
        · have hs : spec = _ := (Except.ok.inj h).symm
          subst hs
          rcases List.mem_cons.mp hps with rfl | hps'
          · rfl
          · by_cases hb : max (t &&& 2 ^ Decoder.TIMESLICE - 1) 1 ≠ t
            · rw [if_pos hb] at hps'
              rcases List.mem_map.mp hps' with ⟨c, -, rfl⟩
              rfl
            · rw [if_neg hb] at hps'
              simp at hps'
  }

/-- C10: every word produced by `encode_spec` (hence by `encode` and
`encode_payload`) is a 32-bit value, because `packParts` reduces every
field modulo `2 ^ width` before packing; consequently an oversized field
value that passes validation — a LOOP jump, or a DFI address — is silently
truncated to its low bits instead of being rejected or spilling into the
adjacent fields. -/
theorem c10_words_32bit_fields_truncated :
    (∀ op kw spec, Encoder.mkInstruction op kw = .ok spec →
      ∀ w ∈ Encoder.encode_spec spec, w < 2 ^ 32) ∧
    (∀ payload, (∀ spec ∈ payload, ∃ op kw, Encoder.mkInstruction op kw = .ok spec) →
      ∀ w ∈ Encoder.encode_payload payload, w < 2 ^ 32) ∧
    (∀ ps, Encoder.packParts ps =
      Encoder.packParts (ps.map fun wv => (wv.1, wv.2 % 2 ^ wv.1))) ∧
    (∀ kw j, kw.jump = some j →
      Encoder.encode .LOOP kw = Encoder.encode .LOOP { kw with jump := some (j % 2 ^ 17) }) ∧
    (∀ op kw a, op.isDfi = true → kw.address = some a →
      Encoder.encode op kw = Encoder.encode op { kw with address := some (a % 2 ^ 24) }) := by
  have hspec : ∀ op kw spec, Encoder.mkInstruction op kw = .ok spec →
      ∀ w ∈ Encoder.encode_spec spec, w < 2 ^ 32 := by
    intro op kw spec h w hw
    rcases List.mem_map.mp hw with ⟨ps, hps, rfl⟩
    have := Encoder.packParts_lt ps
    rwa [mkInstruction_width_sum op kw spec h ps hps] at this
  refine ⟨hspec, ?_, ?_, ?_, ?_⟩
  · intro payload hp w hw
    rcases List.mem_flatMap.mp hw with ⟨spec, hspec', hw'⟩
    obtain ⟨op, kw, hok⟩ := hp spec hspec'
    exact hspec op kw spec hok w hw'
  · have main : ∀ (ps : List (Nat × Nat)) (acc : Nat × Nat),
        ps.foldl
          (fun acc wv => (acc.1 ||| (wv.2 &&& (2 ^ wv.1 - 1)) <<< acc.2, acc.2 + wv.1))
          acc =
        (ps.map fun wv => (wv.1, wv.2 % 2 ^ wv.1)).foldl
          (fun acc wv => (acc.1 ||| (wv.2 &&& (2 ^ wv.1 - 1)) <<< acc.2, acc.2 + wv.1))
          acc := by
      intro ps
      induction ps with
      | nil => intro acc; rfl
      | cons wv rest ih =>
        intro acc
        simp only [List.foldl_cons, List.map_cons]
        have hmm : wv.2 % 2 ^ wv.1 &&& (2 ^ wv.1 - 1) = wv.2 &&& (2 ^ wv.1 - 1) := by
          rw [Nat.and_pow_two_sub_one_eq_mod, Nat.and_pow_two_sub_one_eq_mod,
            Nat.mod_mod_of_dvd _ dvd_rfl]
        rw [hmm]
        exact ih _
    intro ps
    unfold Encoder.packParts
    rw [main ps]
  · intro kw j hj
    rcases hc : kw.count with _ | c
    · simp [Encoder.encode, Encoder.mkInstruction, hc]
    · by_cases hcl : c < 2 ^ Decoder.LOOP_COUNT
      · simp only [Encoder.encode, Encoder.mkInstruction, hc, hj, if_pos hcl,
          Except.map, Encoder.encode_spec, List.map_cons, List.map_nil]
        rw [Encoder.packLoop, Encoder.packLoop,
          Nat.mod_mod_of_dvd j (show (131072 : Nat) ∣ 2 ^ 17 by norm_num)]
      · simp [Encoder.encode, Encoder.mkInstruction, hc, hj, if_neg hcl]
  · intro op kw a hdfi ha
    rcases ht : kw.timeslice with _ | t
    · rw [Encoder.encode, Encoder.encode,
        Encoder.mkInstruction_ts_missing op hdfi kw ht,
        Encoder.mkInstruction_ts_missing op hdfi _ (by simp [ht])]
    · by_cases ht0 : t = 0
      · subst ht0
        rw [Encoder.encode, Encoder.encode,
          Encoder.mkInstruction_ts_zero op hdfi kw ht,
          Encoder.mkInstruction_ts_zero op hdfi _ (by simp [ht])]
      · rw [Encoder.encode_dfi op hdfi kw t ht ht0 (by simp [ha]),
          Encoder.encode_dfi op hdfi _ t (by simp [ht]) ht0 (by simp)]
        simp only [ha, Option.getD_some]
        rw [Encoder.packDfi, Encoder.packDfi,
          Nat.mod_mod_of_dvd a (show (16777216 : Nat) ∣ 2 ^ 24 by norm_num)]

/-- C5: in `RUN`, a decoded STOP (`NOOP` with timeslice 0) always drops
`wants_dfi` and sends the FSM to `READY`, whatever `loop_counter` holds;
and more generally `RUN` exits to `READY` exactly when
`(mem_addr = PIPELINE_DELAY - 1 ∨ stop)` and the decoded instruction is
not a LOOP still owed iterations; whenever it exits, `wants_dfi` is
dropped. -/
theorem c5_stop_terminates_run (memBits : Nat) (mem : Nat → Nat)
    (start dfi_ready : Bool) (s : PayloadExecutor.Exec) (h : s.fsm = .RUN) :
    (Decoder.stop s.instruction →
      (PayloadExecutor.step memBits mem start dfi_ready s).fsm = .READY ∧
      (PayloadExecutor.step memBits mem start dfi_ready s).wants_dfi = false) ∧
    ((PayloadExecutor.step memBits mem start dfi_ready s).fsm = .READY ↔
      (PayloadExecutor.mem_addr s = PayloadExecutor.PIPELINE_DELAY - 1 ∨
        Decoder.stop s.instruction) ∧
      (Decoder.op_code s.instruction ≠ OpCode.LOOP.val ∨
        Decoder.loop_count s.instruction = s.loop_counter)) ∧
    ((PayloadExecutor.step memBits mem start dfi_ready s).fsm = .READY →
      (PayloadExecutor.step memBits mem start dfi_ready s).wants_dfi = false) := by
  obtain ⟨f, pc, pco, md, ins, lc, ic, wd, mda, ia⟩ := s
  obtain rfl : f = .RUN := h
  by_cases hterm :
      PayloadExecutor.terminationCond ⟨.RUN, pc, pco, md, ins, lc, ic, wd, mda, ia⟩
  · have hstep :
        (PayloadExecutor.step memBits mem start dfi_ready
            ⟨.RUN, pc, pco, md, ins, lc, ic, wd, mda, ia⟩).fsm = .READY ∧
        (PayloadExecutor.step memBits mem start dfi_ready
            ⟨.RUN, pc, pco, md, ins, lc, ic, wd, mda, ia⟩).wants_dfi = false := by
      simp only [PayloadExecutor.step]
      rw [if_pos hterm]
      exact ⟨rfl, rfl⟩
    exact ⟨fun _ => hstep, iff_of_true hstep.1 hterm, fun _ => hstep.2⟩
  · have hnostop : ¬ Decoder.stop ins := fun hstop =>
      hterm ⟨Or.inr hstop, Or.inl (by rw [hstop.1]; decide)⟩
    have hfsm :
        (PayloadExecutor.step memBits mem start dfi_ready
          ⟨.RUN, pc, pco, md, ins, lc, ic, wd, mda, ia⟩).fsm ≠ .READY := by
      simp only [PayloadExecutor.step]
      rw [if_neg hterm]
      by_cases hop : Decoder.op_code ins = OpCode.LOOP.val
      · rw [if_pos hop]
        by_cases hlc : lc ≠ Decoder.loop_count ins
        · rw [if_pos hlc]; simp
        · rw [if_neg hlc]; simp
      · rw [if_neg hop]
        by_cases hts : Decoder.timeslice ins = 0 ∨ Decoder.timeslice ins = 1
        · rw [if_pos hts]; simp
        · rw [if_neg hts]; simp
    exact ⟨fun hstop => absurd hstop hnostop, iff_of_false hfsm hterm,
      fun hr => absurd hr hfsm⟩

/-- C5, witness: a STOP decoded inside an unfinished loop
(`loop_counter = 7`) still exits to `READY` and drops `wants_dfi`. -/
theorem c5_stop_terminates_run_witness :
    (⟨.RUN, 5, 4, 0, 0, 7, 0, true, 4, 3⟩ : PayloadExecutor.Exec).fsm = .RUN ∧
    ((Decoder.stop (0 : Nat) →
      (PayloadExecutor.step 3 (fun _ => 0) false false
        ⟨.RUN, 5, 4, 0, 0, 7, 0, true, 4, 3⟩).fsm = .READY ∧
      (PayloadExecutor.step 3 (fun _ => 0) false false
        ⟨.RUN, 5, 4, 0, 0, 7, 0, true, 4, 3⟩).wants_dfi = false) ∧
    ((PayloadExecutor.step 3 (fun _ => 0) false false
        ⟨.RUN, 5, 4, 0, 0, 7, 0, true, 4, 3⟩).fsm = .READY ↔
      (PayloadExecutor.mem_addr ⟨.RUN, 5, 4, 0, 0, 7, 0, true, 4, 3⟩ =
          PayloadExecutor.PIPELINE_DELAY - 1 ∨ Decoder.stop (0 : Nat)) ∧
      (Decoder.op_code (0 : Nat) ≠ OpCode.LOOP.val ∨
        Decoder.loop_count (0 : Nat) = 7)) ∧
    ((PayloadExecutor.step 3 (fun _ => 0) false false
        ⟨.RUN, 5, 4, 0, 0, 7, 0, true, 4, 3⟩).fsm = .READY →
      (PayloadExecutor.step 3 (fun _ => 0) false false
        ⟨.RUN, 5, 4, 0, 0, 7, 0, true, 4, 3⟩).wants_dfi = false)) :=
  ⟨rfl, c5_stop_terminates_run 3 (fun _ => 0) false false
    ⟨.RUN, 5, 4, 0, 0, 7, 0, true, 4, 3⟩ rfl⟩

namespace PayloadExecutor

/-- In `IDLE` the FSM returns to `RUN` when the counter hits zero and
counts down otherwise (`x - 1` also covers the hold at zero). -/
theorem step_idle_fsm (memBits : Nat) (mem : Nat → Nat) (start dfi_ready : Bool)
    {s : Exec} (h : s.fsm = .IDLE) :
    ((step memBits mem start dfi_ready s).fsm =
      if s.idle_counter = 0 then FsmState.RUN else .IDLE) ∧
    (step memBits mem start dfi_ready s).idle_counter = s.idle_counter - 1 := by
  obtain ⟨f, pc, pco, md, ins, lc, ic, wd, mda, ia⟩ := s
  obtain rfl : f = .IDLE := h
  by_cases hic : ic = 0
  · subst hic
    simp [step]
  · simp [step, hic]

/-- Unrolling one quiescent cycle from the front of a `run`. -/
theorem run_succ_shift (memBits : Nat) (mem : Nat → Nat) (s : Exec) :
    ∀ k, run memBits mem s (k + 1) =
      run memBits mem (step memBits mem false false s) k := by
  intro k
  induction k with
  | zero => rfl
  | succ k ih =>
    show step memBits mem false false (run memBits mem s (k + 1)) = _
    rw [ih]
    rfl

/-- An `IDLE` state with counter `c` spins in `IDLE` for `c` further
cycles and is back in `RUN` on cycle `c + 1`. -/
theorem idle_spin (memBits : Nat) (mem : Nat → Nat) :
    ∀ (c : Nat) (s : Exec), s.fsm = .IDLE → s.idle_counter = c →
      (∀ k, k ≤ c → (run memBits mem s k).fsm = .IDLE) ∧
      (run memBits mem s (c + 1)).fsm = .RUN := by
  intro c
  induction c with
  | zero =>
    intro s hf hc
    refine ⟨?_, ?_⟩
    · intro k hk
      interval_cases k
      exact hf
    · have h1 := (step_idle_fsm memBits mem false false hf).1
      rw [hc] at h1
      simpa using h1
  | succ n ih =>
    intro s hf hc
    have h1 := step_idle_fsm memBits mem false false (s := s) hf
    rw [hc] at h1
    have hstep_f : (step memBits mem false false s).fsm = .IDLE := by
      simpa using h1.1
    have hstep_c : (step memBits mem false false s).idle_counter = n := by
      simpa using h1.2
    obtain ⟨hall, hrun⟩ := ih (step memBits mem false false s) hstep_f hstep_c
    refine ⟨?_, ?_⟩
    · intro k hk
      cases k with
      | zero => exact hf
      | succ k' =>
        rw [run_succ_shift]
        exact hall k' (by omega)
    · rw [run_succ_shift]
      exact hrun

end PayloadExecutor

/-- C9: a non-NOOP, non-LOOP instruction reached in `RUN` away from the
end-of-memory sentinel occupies exactly `max timeslice 1` cycles: with
decoded timeslice 0 or 1 the FSM stays in `RUN` (one cycle, no error);
with timeslice `T ≥ 2` it loads `idle_counter := T - 2`, spends cycles
`1 … T - 1` in `IDLE`, and is back in `RUN` at cycle `T`. -/
theorem c9_dfi_timeslice_duration (memBits : Nat) (mem : Nat → Nat)
    (s : PayloadExecutor.Exec) (h : s.fsm = .RUN)
    (hop0 : Decoder.op_code s.instruction ≠ OpCode.NOOP.val)
    (hop7 : Decoder.op_code s.instruction ≠ OpCode.LOOP.val)
    (hpc : PayloadExecutor.mem_addr s ≠ PayloadExecutor.PIPELINE_DELAY - 1) :
    (2 ≤ Decoder.timeslice s.instruction →
      (PayloadExecutor.step memBits mem false false s).fsm = .IDLE ∧
      (PayloadExecutor.step memBits mem false false s).idle_counter =
        Decoder.timeslice s.instruction - 2) ∧
    (Decoder.timeslice s.instruction ≤ 1 →
      (PayloadExecutor.step memBits mem false false s).fsm = .RUN) ∧
    (∀ k, 0 < k → k < max (Decoder.timeslice s.instruction) 1 →
      (PayloadExecutor.run memBits mem s k).fsm = .IDLE) ∧
    (PayloadExecutor.run memBits mem s
      (max (Decoder.timeslice s.instruction) 1)).fsm = .RUN := by
  have hterm : ¬ PayloadExecutor.terminationCond s := by
    rintro ⟨h1, -⟩
    rcases h1 with h1 | h1
    · exact hpc h1
    · exact hop0 h1.1
  obtain ⟨f, pc, pco, md, ins, lc, ic, wd, mda, ia⟩ := s
  obtain rfl : f = .RUN := h
  by_cases hts : Decoder.timeslice ins = 0 ∨ Decoder.timeslice ins = 1
  · have hstep : (PayloadExecutor.step memBits mem false false
        ⟨.RUN, pc, pco, md, ins, lc, ic, wd, mda, ia⟩).fsm = .RUN := by
      simp only [PayloadExecutor.step]
      rw [if_neg hterm, if_neg hop7, if_pos hts]
    refine ⟨fun h2 => absurd h2 (show ¬ 2 ≤ Decoder.timeslice ins by omega),
      fun _ => hstep, ?_, ?_⟩
    · intro k hk0 hkd
      rw [show max (Decoder.timeslice ins) 1 = 1 by omega] at hkd
      omega
    · rw [show max (Decoder.timeslice ins) 1 = 1 by omega]
      exact hstep
  · push_neg at hts
    have hT2 : 2 ≤ Decoder.timeslice ins := by omega
    have hfsm : (PayloadExecutor.step memBits mem false false
        ⟨.RUN, pc, pco, md, ins, lc, ic, wd, mda, ia⟩).fsm = .IDLE := by
      simp only [PayloadExecutor.step]
      rw [if_neg hterm, if_neg hop7, if_neg (by omega)]
    have hic : (PayloadExecutor.step memBits mem false false
        ⟨.RUN, pc, pco, md, ins, lc, ic, wd, mda, ia⟩).idle_counter =
        Decoder.timeslice ins - 2 := by
      simp only [PayloadExecutor.step]
      rw [if_neg hterm, if_neg hop7, if_neg (by omega)]
    obtain ⟨hall, hrun⟩ := PayloadExecutor.idle_spin memBits mem
      (Decoder.timeslice ins - 2) _ hfsm hic
    refine ⟨fun _ => ⟨hfsm, hic⟩,
      fun h1 => absurd h1 (show ¬ Decoder.timeslice ins ≤ 1 by omega), ?_, ?_⟩
    · intro k hk0 hkd
      rw [show max (Decoder.timeslice ins) 1 = Decoder.timeslice ins by omega] at hkd
      obtain ⟨k', rfl⟩ : ∃ k', k = k' + 1 := ⟨k - 1, by omega⟩
      rw [PayloadExecutor.run_succ_shift]
      exact hall k' (by omega)
    · rw [show max (Decoder.timeslice ins) 1 =
        (Decoder.timeslice ins - 2) + 1 + 1 by omega]
      rw [PayloadExecutor.run_succ_shift]
      exact hrun

/-- C9, witness: an `ACT` with encoded timeslice 5 (word 44) spends one
`RUN` cycle and four `IDLE`-related cycles — five in total. -/
theorem c9_dfi_timeslice_duration_witness :
    ((⟨.RUN, 2, 1, 0, 44, 0, 0, true, 1, 0⟩ : PayloadExecutor.Exec).fsm = .RUN ∧
      Decoder.op_code (44 : Nat) ≠ OpCode.NOOP.val ∧
      Decoder.op_code (44 : Nat) ≠ OpCode.LOOP.val ∧
      PayloadExecutor.mem_addr ⟨.RUN, 2, 1, 0, 44, 0, 0, true, 1, 0⟩ ≠
        PayloadExecutor.PIPELINE_DELAY - 1) ∧
    ((2 ≤ Decoder.timeslice (44 : Nat) →
      (PayloadExecutor.step 3 (fun _ => 0) false false
        ⟨.RUN, 2, 1, 0, 44, 0, 0, true, 1, 0⟩).fsm = .IDLE ∧
      (PayloadExecutor.step 3 (fun _ => 0) false false
        ⟨.RUN, 2, 1, 0, 44, 0, 0, true, 1, 0⟩).idle_counter =
        Decoder.timeslice (44 : Nat) - 2) ∧
    (Decoder.timeslice (44 : Nat) ≤ 1 →
      (PayloadExecutor.step 3 (fun _ => 0) false false
        ⟨.RUN, 2, 1, 0, 44, 0, 0, true, 1, 0⟩).fsm = .RUN) ∧
    (∀ k, 0 < k → k < max (Decoder.timeslice (44 : Nat)) 1 →
      (PayloadExecutor.run 3 (fun _ => 0)
        ⟨.RUN, 2, 1, 0, 44, 0, 0, true, 1, 0⟩ k).fsm = .IDLE) ∧
    (PayloadExecutor.run 3 (fun _ => 0) ⟨.RUN, 2, 1, 0, 44, 0, 0, true, 1, 0⟩
      (max (Decoder.timeslice (44 : Nat)) 1)).fsm = .RUN) :=
  ⟨⟨rfl, by decide, by decide, by decide⟩,
   c9_dfi_timeslice_duration 3 (fun _ => 0)
     ⟨.RUN, 2, 1, 0, 44, 0, 0, true, 1, 0⟩ rfl (by decide) (by decide) (by decide)⟩

/-- C7: the scratchpad cursor moves only on read-data-write cycles,
advancing by one except at `depth - 1`, where it wraps to 0 and sets the
sticky overflow flag; overflow stays set on every non-reset cycle; the
reset — asserted by the executor exactly in its `WAIT-DFI` state — clears
the cursor and the flag. -/
theorem c7_scratchpad_cursor_overflow (depth : Nat) (s : Scratchpad.State)
    (we : Bool) (es : PayloadExecutor.Exec) :
    (es.fsm = .WAIT_DFI →
      Scratchpad.step depth s we (PayloadExecutor.scratchpad_reset es) =
        ⟨0, false⟩) ∧
    (es.fsm ≠ .WAIT_DFI → PayloadExecutor.scratchpad_reset es = false) ∧
    (we = false → Scratchpad.step depth s we false = s) ∧
    (we = true → s.counter ≠ depth - 1 →
      Scratchpad.step depth s we false = ⟨s.counter + 1, s.overflow⟩) ∧
    (we = true → s.counter = depth - 1 →
      Scratchpad.step depth s we false = ⟨0, true⟩) ∧
    (s.overflow = true → (Scratchpad.step depth s we false).overflow = true) := by
  refine ⟨?_, ?_, ?_, ?_, ?_, ?_⟩
  · intro hf
    have hr : PayloadExecutor.scratchpad_reset es = true := by
      unfold PayloadExecutor.scratchpad_reset
      rw [hf]
    rw [hr]
    rfl
  · intro hf
    unfold PayloadExecutor.scratchpad_reset
    cases hes : es.fsm <;> first
      | exact absurd hes hf
      | rfl
  · intro hwe
    subst hwe
    rfl
  · intro hwe hc
    subst hwe
    unfold Scratchpad.step
    rw [if_neg (by simp), if_pos rfl, if_neg hc]
  · intro hwe hc
    subst hwe
    unfold Scratchpad.step
    rw [if_neg (by simp), if_pos rfl, if_pos hc]
  · intro hov
    unfold Scratchpad.step
    rw [if_neg (by simp)]
    cases we
    · rw [if_neg (by simp)]
      exact hov
    · rw [if_pos rfl]
      by_cases hc : s.counter = depth - 1
      · rw [if_pos hc]
      · rw [if_neg hc]
        exact hov

/-- C8: the bus switch leaves `MEMORY-CONTROLLER` for `PAYLOAD-EXECUTION`
exactly when the executor asserts `wants_dfi` and — when refresh gating is
built in — a refresh command is observed this cycle with
`at_refresh = 0` or `at_refresh = refresh_counter + 1`; it returns to
`MEMORY-CONTROLLER` exactly when `wants_dfi` has dropped, and the external
refresher reset pulses exactly on that returning cycle. -/
theorem c8_switch_handover (with_refresh wants_dfi refresh : Bool)
    (refresh_counter at_refresh : Nat) :
    (DFISwitch.step with_refresh .MEMORY_CONTROLLER wants_dfi refresh
        refresh_counter at_refresh = .PAYLOAD_EXECUTION ↔
      wants_dfi = true ∧ (with_refresh = true →
        refresh = true ∧ (at_refresh = 0 ∨ at_refresh = refresh_counter + 1))) ∧
    (DFISwitch.step with_refresh .PAYLOAD_EXECUTION wants_dfi refresh
        refresh_counter at_refresh = .MEMORY_CONTROLLER ↔ wants_dfi = false) ∧
    (∀ st, DFISwitch.refresher_reset st wants_dfi ↔
      st = .PAYLOAD_EXECUTION ∧
      DFISwitch.step with_refresh st wants_dfi refresh refresh_counter
        at_refresh = .MEMORY_CONTROLLER) := by
  refine ⟨?_, ?_, ?_⟩
  · cases with_refresh <;> cases wants_dfi <;> cases refresh <;>
      by_cases hm : DFISwitch.refresh_matches at_refresh refresh_counter <;>
      simp [DFISwitch.step, DFISwitch.refresh_matches] at hm ⊢ <;>
      tauto
  · cases wants_dfi <;> simp [DFISwitch.step]
  · intro st
    cases st <;> cases wants_dfi <;>
      simp [DFISwitch.step, DFISwitch.refresher_reset]

/-- C4, counterexample: in the run of `memC4` the LOOP at address 2
(count `N = 1`, jump `J = 1`) is reached in `RUN` at cycle 6 with
`loop_counter = 0`, and the run terminates; but address 0 — the first of
the `J + 1 = 2` instructions immediately preceding the LOOP — executes
only once in the entire run, not the claimed `N + 1 = 2` times.  Only the
`J = 1` instruction at address 1 executes `N + 1 = 2` times. -/
theorem c4_counterexample :
    Decoder.op_code (memC4 2) = OpCode.LOOP.val ∧
    Decoder.loop_count (memC4 2) = 1 ∧
    Decoder.loop_jump (memC4 2) = 1 ∧
    (traceC4 6).fsm = .RUN ∧
    (traceC4 6).instruction_addr = 2 ∧
    (traceC4 6).loop_counter = 0 ∧
    (traceC4 50).fsm = .READY ∧
    PayloadExecutor.countExec traceC4 0 50 = 1 ∧
    PayloadExecutor.countExec traceC4 1 50 = 2 := by decide

namespace PayloadExecutor

theorem run_add (memBits : Nat) (mem : Nat → Nat) (s : Exec) (m : Nat) :
    ∀ n, run memBits mem s (m + n) = run memBits mem (run memBits mem s m) n := by
  intro n
  induction n with
  | zero => rfl
  | succ n ih =>
    show step memBits mem false false (run memBits mem s (m + n)) = _
    rw [ih]
    rfl

theorem countExec_add (memBits : Nat) (mem : Nat → Nat) (s : Exec) (b m : Nat) :
    ∀ n, countExec (fun t => run memBits mem s t) b (m + n) =
      countExec (fun t => run memBits mem s t) b m +
      countExec (fun t => run memBits mem (run memBits mem s m) t) b n := by
  intro n
  induction n with
  | zero => rfl
  | succ n ih =>
    have hshift : run memBits mem (run memBits mem s m) n = run memBits mem s (m + n) :=
      (run_add memBits mem s m n).symm
    show countExec (fun t => run memBits mem s t) b (m + n) +
        (if executesAt (run memBits mem s (m + n)) b then 1 else 0) = _
    rw [ih]
    show _ = _ + (countExec (fun t => run memBits mem (run memBits mem s m) t) b n +
        (if executesAt (run memBits mem (run memBits mem s m) n) b then 1 else 0))
    rw [hshift, Nat.add_assoc]

/-- Counting over a window whose first cycle is a `RUN` at address `a` and
whose other cycles are not `RUN` cycles. -/
theorem countExec_window (tr : Nat → Exec) (a : Nat) :
    ∀ d, 1 ≤ d → (tr 0).fsm = .RUN → (tr 0).instruction_addr = a →
      (∀ t, 0 < t → t < d → (tr t).fsm ≠ .RUN) →
      ∀ b, countExec tr b d = if a = b then 1 else 0 := by
  intro d
  induction d with
  | zero => omega
  | succ n ih =>
    intro _ h0f h0a hrest b
    cases n with
    | zero =>
      show 0 + (if executesAt (tr 0) b then 1 else 0) = _
      by_cases hab : a = b
      · have hex : executesAt (tr 0) b := ⟨h0f, hab ▸ h0a⟩
        rw [if_pos hab, if_pos hex]
      · have hnex : ¬ executesAt (tr 0) b := fun hx =>
          hab (h0a.symm.trans (And.right hx))
        rw [if_neg hab, if_neg hnex]
    | succ m =>
      show countExec tr b (m + 1) + (if executesAt (tr (m + 1)) b then 1 else 0) = _
      have hnex : ¬ executesAt (tr (m + 1)) b := fun hx =>
        hrest (m + 1) (by omega) (by omega) (And.left hx)
      rw [ih (by omega) h0f h0a (fun t ht0 htd => hrest t ht0 (by omega)) b,
        if_neg hnex, Nat.add_zero]

/-- Full-state form of an `IDLE` cycle: with the port register already
coherent with `program_counter_old`, only the FSM state and the idle
counter move. -/
theorem step_idle_full (memBits : Nat) (mem : Nat → Nat) (start dfi_ready : Bool)
    {s : Exec} (h : s.fsm = .IDLE)
    (hmd : s.mem_dat = mem s.program_counter_old)
    (hmda : s.mem_dat_addr = s.program_counter_old) :
    step memBits mem start dfi_ready s =
      { s with fsm := if s.idle_counter = 0 then .RUN else .IDLE,
               idle_counter := s.idle_counter - 1 } := by
  obtain ⟨f, pc, pco, md, ins, lc, ic, wd, mda, ia⟩ := s
  obtain rfl : f = .IDLE := h
  obtain rfl : md = mem pco := hmd
  obtain rfl : mda = pco := hmda
  by_cases hic : ic = 0
  · subst hic
    simp [step, stall, mem_addr, reset_pc]
  · simp [step, stall, mem_addr, reset_pc, hic]

/-- Full-state form of the `IDLE` spin: after `c + 1` cycles the machine
is back in `RUN` with everything except the idle counter untouched. -/
theorem idle_spin_full (memBits : Nat) (mem : Nat → Nat) :
    ∀ (c : Nat) (s : Exec), s.fsm = .IDLE → s.idle_counter = c →
      s.mem_dat = mem s.program_counter_old →
      s.mem_dat_addr = s.program_counter_old →
      run memBits mem s (c + 1) = { s with fsm := .RUN, idle_counter := 0 } ∧
      (∀ k, k ≤ c → (run memBits mem s k).fsm = .IDLE) := by
  intro c
  induction c with
  | zero =>
    intro s hf hc hmd hmda
    constructor
    · show step memBits mem false false s = _
      rw [step_idle_full memBits mem false false hf hmd hmda, hc]
      rfl
    · intro k hk
      interval_cases k
      exact hf
  | succ n ih =>
    intro s hf hc hmd hmda
    have hstep := step_idle_full memBits mem false false hf hmd hmda
    rw [hc] at hstep
    have hs' : step memBits mem false false s =
        { s with fsm := .IDLE, idle_counter := n } := by
      rw [hstep]
      simp
    obtain ⟨hrun, hall⟩ := ih ({ s with fsm := .IDLE, idle_counter := n })
      rfl rfl hmd hmda
    constructor
    · rw [run_succ_shift, hs', hrun]
    · intro k hk
      cases k with
      | zero => exact hf
      | succ k' =>
        rw [run_succ_shift, hs']
        exact hall k' (by omega)

/-- Lemma for C4: a non-LOOP, non-STOP instruction processed on a steady
`RUN` cycle at address `a` completes after `max timeslice 1` cycles,
leaving the machine steady at `a + 1` with the loop counter and
`wants_dfi` untouched; the interval executes address `a` once and nothing
else. -/
theorem dfi_advance (memBits : Nat) (mem : Nat → Nat) {s : Exec} {a : Nat}
    (hs : steadyAt mem s a)
    (hop : Decoder.op_code (mem a) ≠ OpCode.LOOP.val)
    (hstop : ¬ Decoder.stop (mem a))
    (hbits : a + 3 < 2 ^ memBits) :
    steadyAt mem (run memBits mem s (max (Decoder.timeslice (mem a)) 1)) (a + 1) ∧
    (run memBits mem s (max (Decoder.timeslice (mem a)) 1)).loop_counter =
      s.loop_counter ∧
    (run memBits mem s (max (Decoder.timeslice (mem a)) 1)).wants_dfi =
      s.wants_dfi ∧
    (∀ b, countExec (fun t => run memBits mem s t) b
      (max (Decoder.timeslice (mem a)) 1) = if a = b then 1 else 0) := by
  obtain ⟨hf, hpc, hpco, hmd, hmda, hins, hia⟩ := hs
  obtain ⟨f, pc, pco, md, ins, lc, ic, wd, mda, ia⟩ := s
  obtain rfl : f = .RUN := hf
  obtain rfl : pc = a + 2 := hpc
  obtain rfl : pco = a + 1 := hpco
  obtain rfl : md = mem (a + 1) := hmd
  obtain rfl : mda = a + 1 := hmda
  obtain rfl : ins = mem a := hins
  obtain rfl : a = ia := hia.symm
  have hterm : ¬ terminationCond
      ⟨.RUN, a + 2, a + 1, mem (a + 1), mem a, lc, ic, wd, a + 1, a⟩ := by
    rintro ⟨h1, -⟩
    rcases h1 with h1 | h1
    · exact absurd (show a + 2 = 1 from h1) (by omega)
    · exact hstop h1
  have hjump : ¬ jump ⟨.RUN, a + 2, a + 1, mem (a + 1), mem a, lc, ic, wd, a + 1, a⟩ :=
    fun hj => hop hj.2.2.1
  have hmod : (a + 2 + 1) % 2 ^ memBits = a + 3 := Nat.mod_eq_of_lt hbits
  by_cases hts : Decoder.timeslice (mem a) = 0 ∨ Decoder.timeslice (mem a) = 1
  · have hstep : step memBits mem false false
        ⟨.RUN, a + 2, a + 1, mem (a + 1), mem a, lc, ic, wd, a + 1, a⟩ =
        ⟨.RUN, a + 3, a + 2, mem (a + 2), mem (a + 1), lc, ic, wd, a + 2, a + 1⟩ := by
      simp only [step]
      rw [if_neg hterm, if_neg hop, if_pos hts]
      simp [stall, mem_addr, next_addr, reset_pc, hjump, hmod]
    have hdur : max (Decoder.timeslice (mem a)) 1 = 1 := by omega
    have hrun1 : run memBits mem
        ⟨.RUN, a + 2, a + 1, mem (a + 1), mem a, lc, ic, wd, a + 1, a⟩ 1 =
        ⟨.RUN, a + 3, a + 2, mem (a + 2), mem (a + 1), lc, ic, wd, a + 2, a + 1⟩ :=
      hstep
    rw [hdur]
    refine ⟨?_, ?_, ?_, ?_⟩
    · rw [hrun1]
      exact ⟨rfl, rfl, rfl, rfl, rfl, rfl, rfl⟩
    · rw [hrun1]
    · rw [hrun1]
    · intro b
      refine countExec_window _ a 1 (by omega) rfl rfl ?_ b
      intro t ht0 ht1
      omega
  · have hT2 : 2 ≤ Decoder.timeslice (mem a) := by omega
    have hstep : step memBits mem false false
        ⟨.RUN, a + 2, a + 1, mem (a + 1), mem a, lc, ic, wd, a + 1, a⟩ =
        ⟨.IDLE, a + 3, a + 2, mem (a + 2), mem (a + 1), lc,
          Decoder.timeslice (mem a) - 2, wd, a + 2, a + 1⟩ := by
      simp only [step]
      rw [if_neg hterm, if_neg hop, if_neg hts]
      simp [stall, mem_addr, next_addr, reset_pc, hjump, hmod]
    obtain ⟨hrun, Idle⟩ := idle_spin_full memBits mem
      (Decoder.timeslice (mem a) - 2)
      ⟨.IDLE, a + 3, a + 2, mem (a + 2), mem (a + 1), lc,
        Decoder.timeslice (mem a) - 2, wd, a + 2, a + 1⟩
      rfl rfl rfl rfl
    have hdur : max (Decoder.timeslice (mem a)) 1 =
        (Decoder.timeslice (mem a) - 2 + 1) + 1 := by omega
    have hfull : run memBits mem
        ⟨.RUN, a + 2, a + 1, mem (a + 1), mem a, lc, ic, wd, a + 1, a⟩
        (max (Decoder.timeslice (mem a)) 1) =
        ⟨.RUN, a + 3, a + 2, mem (a + 2), mem (a + 1), lc, 0, wd, a + 2, a + 1⟩ := by
      rw [hdur, run_succ_shift, hstep, hrun]
    refine ⟨?_, ?_, ?_, ?_⟩
    · rw [hfull]
      exact ⟨rfl, rfl, rfl, rfl, rfl, rfl, rfl⟩
    · rw [hfull]
    · rw [hfull]
    · intro b
      refine countExec_window _ a (max (Decoder.timeslice (mem a)) 1)
        (by omega) rfl rfl ?_ b
      intro t ht0 htd
      obtain ⟨t', rfl⟩ : ∃ t', t = t' + 1 := ⟨t - 1, by omega⟩
      rw [run_succ_shift, hstep]
      have := Idle t' (by omega)
      rw [this]
      simp

/-- The decoded loop count always fits in 12 bits. -/
theorem loop_count_lt (w : Nat) : Decoder.loop_count w < 2 ^ Decoder.LOOP_COUNT :=
  Nat.mod_lt _ (by norm_num [Decoder.LOOP_COUNT])

/-- Lemma for C4: executing the LOOP at `L` on a steady `RUN` cycle with
unfinished iterations takes the backward branch: three cycles later (one
`RUN` cycle and two `BUBBLE` refill cycles) the machine is steady at the
branch target `L - loop_jump`, the loop counter is incremented, and the
interval executes only address `L`. -/
theorem loop_take_branch (memBits : Nat) (mem : Nat → Nat) {s : Exec} {L : Nat}
    (hs : steadyAt mem s L)
    (hop : Decoder.op_code (mem L) = OpCode.LOOP.val)
    (hklt : s.loop_counter < Decoder.loop_count (mem L))
    (hJ1 : 1 ≤ Decoder.loop_jump (mem L))
    (hJL : Decoder.loop_jump (mem L) ≤ L)
    (hbits : L + 3 < 2 ^ memBits) :
    steadyAt mem (run memBits mem s 3) (L - Decoder.loop_jump (mem L)) ∧
    (run memBits mem s 3).loop_counter = s.loop_counter + 1 ∧
    (run memBits mem s 3).wants_dfi = s.wants_dfi ∧
    (run memBits mem s 3).idle_counter = 0 ∧
    (∀ b, countExec (fun t => run memBits mem s t) b 3 = if L = b then 1 else 0) := by
  obtain ⟨hf, hpc, hpco, hmd, hmda, hins, hia⟩ := hs
  obtain ⟨f, pc, pco, md, ins, lc, ic, wd, mda, ia⟩ := s
  obtain rfl : f = .RUN := hf
  obtain rfl : pc = L + 2 := hpc
  obtain rfl : pco = L + 1 := hpco
  obtain rfl : md = mem (L + 1) := hmd
  obtain rfl : mda = L + 1 := hmda
  obtain rfl : ins = mem L := hins
  obtain rfl : L = ia := hia.symm
  have hklt2 : lc < Decoder.loop_count (mem L) := hklt
  have hterm : ¬ terminationCond
      ⟨.RUN, L + 2, L + 1, mem (L + 1), mem L, lc, ic, wd, L + 1, L⟩ := by
    rintro ⟨-, h2⟩
    rcases h2 with h2 | h2
    · exact h2 hop
    · exact absurd (show Decoder.loop_count (mem L) = lc from h2) (by omega)
  have hne : lc ≠ Decoder.loop_count (mem L) := by omega
  have hjump : jump ⟨.RUN, L + 2, L + 1, mem (L + 1), mem L, lc, ic, wd, L + 1, L⟩ :=
    ⟨rfl, hterm, hop, hne⟩
  have htgt : next_addr memBits
      ⟨.RUN, L + 2, L + 1, mem (L + 1), mem L, lc, ic, wd, L + 1, L⟩ =
      L - Decoder.loop_jump (mem L) := by
    unfold next_addr
    rw [if_pos hjump]
    have h1 : ((L + 2 : Nat) : Int) - (Decoder.loop_jump (mem L) : Int) -
        ((PIPELINE_DELAY : Nat) : Int) =
        ((L - Decoder.loop_jump (mem L) : Nat) : Int) := by
      rw [Nat.cast_sub hJL]
      rw [show ((PIPELINE_DELAY : Nat) : Int) = 2 from rfl]
      push_cast
      ring
    rw [h1]
    have hlt : ((L - Decoder.loop_jump (mem L) : Nat) : Int) < (2 : Int) ^ memBits := by
      have h2 : L - Decoder.loop_jump (mem L) < 2 ^ memBits := by omega
      exact_mod_cast h2
    rw [Int.emod_eq_of_lt (Int.natCast_nonneg _) hlt, Int.toNat_ofNat]
  have hlc1 : (lc + 1) % 2 ^ Decoder.LOOP_COUNT = lc + 1 :=
    Nat.mod_eq_of_lt (by have := loop_count_lt (mem L); omega)
  have hstep1 : step memBits mem false false
      ⟨.RUN, L + 2, L + 1, mem (L + 1), mem L, lc, ic, wd, L + 1, L⟩ =
      ⟨.BUBBLE, L - Decoder.loop_jump (mem L), L + 2, mem (L + 2), mem (L + 1),
        lc + 1, 1, wd, L + 2, L + 1⟩ := by
    simp only [step]
    rw [if_neg hterm, if_pos hop, if_pos hne]
    simp [stall, mem_addr, reset_pc, htgt, hlc1, PIPELINE_DELAY]
  have hjump2 : ¬ jump ⟨.BUBBLE, L - Decoder.loop_jump (mem L), L + 2,
      mem (L + 2), mem (L + 1), lc + 1, 1, wd, L + 2, L + 1⟩ :=
    fun hj => absurd hj.1 (by simp)
  have hmodB : (L - Decoder.loop_jump (mem L) + 1) % 2 ^ memBits =
      L - Decoder.loop_jump (mem L) + 1 := Nat.mod_eq_of_lt (by omega)
  have hstep2 : step memBits mem false false
      ⟨.BUBBLE, L - Decoder.loop_jump (mem L), L + 2, mem (L + 2), mem (L + 1),
        lc + 1, 1, wd, L + 2, L + 1⟩ =
      ⟨.BUBBLE, L - Decoder.loop_jump (mem L) + 1, L - Decoder.loop_jump (mem L),
        mem (L - Decoder.loop_jump (mem L)), mem (L + 2),
        lc + 1, 0, wd, L - Decoder.loop_jump (mem L), L + 2⟩ := by
    simp only [step]
    simp [stall, mem_addr, reset_pc, next_addr, hjump2, hmodB]
  have hmodC : (L - Decoder.loop_jump (mem L) + 1 + 1) % 2 ^ memBits =
      L - Decoder.loop_jump (mem L) + 1 + 1 := Nat.mod_eq_of_lt (by omega)
  have hjump3 : ¬ jump ⟨.BUBBLE, L - Decoder.loop_jump (mem L) + 1,
      L - Decoder.loop_jump (mem L), mem (L - Decoder.loop_jump (mem L)),
      mem (L + 2), lc + 1, 0, wd, L - Decoder.loop_jump (mem L), L + 2⟩ :=
    fun hj => absurd hj.1 (by simp)
  have hstep3 : step memBits mem false false
      ⟨.BUBBLE, L - Decoder.loop_jump (mem L) + 1, L - Decoder.loop_jump (mem L),
        mem (L - Decoder.loop_jump (mem L)), mem (L + 2),
        lc + 1, 0, wd, L - Decoder.loop_jump (mem L), L + 2⟩ =
      ⟨.RUN, L - Decoder.loop_jump (mem L) + 2, L - Decoder.loop_jump (mem L) + 1,
        mem (L - Decoder.loop_jump (mem L) + 1), mem (L - Decoder.loop_jump (mem L)),
        lc + 1, 0, wd, L - Decoder.loop_jump (mem L) + 1,
        L - Decoder.loop_jump (mem L)⟩ := by
    simp only [step]
    simp [stall, mem_addr, reset_pc, next_addr, hjump3, hmodC]
  have h1 : run memBits mem
      ⟨.RUN, L + 2, L + 1, mem (L + 1), mem L, lc, ic, wd, L + 1, L⟩ 1 = _ := hstep1
  have h2 : run memBits mem
      ⟨.RUN, L + 2, L + 1, mem (L + 1), mem L, lc, ic, wd, L + 1, L⟩ 2 =
      ⟨.BUBBLE, L - Decoder.loop_jump (mem L) + 1, L - Decoder.loop_jump (mem L),
        mem (L - Decoder.loop_jump (mem L)), mem (L + 2),
        lc + 1, 0, wd, L - Decoder.loop_jump (mem L), L + 2⟩ := by
    show step memBits mem false false (run memBits mem _ 1) = _
    rw [h1, hstep2]
  have h3 : run memBits mem
      ⟨.RUN, L + 2, L + 1, mem (L + 1), mem L, lc, ic, wd, L + 1, L⟩ 3 =
      ⟨.RUN, L - Decoder.loop_jump (mem L) + 2, L - Decoder.loop_jump (mem L) + 1,
        mem (L - Decoder.loop_jump (mem L) + 1), mem (L - Decoder.loop_jump (mem L)),
        lc + 1, 0, wd, L - Decoder.loop_jump (mem L) + 1,
        L - Decoder.loop_jump (mem L)⟩ := by
    show step memBits mem false false (run memBits mem _ 2) = _
    rw [h2, hstep3]
  refine ⟨?_, ?_, ?_, ?_, ?_⟩
  · rw [h3]
    exact ⟨rfl, rfl, rfl, rfl, rfl, rfl, rfl⟩
  · rw [h3]
  · rw [h3]
  · rw [h3]
  · intro b
    refine countExec_window _ L 3 (by omega) rfl rfl ?_ b
    intro t ht0 ht3
    interval_cases t
    · rw [h1]
      simp
    · rw [h2]
      simp

/-- Lemma for C4: a LOOP whose iterations are finished clears the loop
counter and falls through to the next instruction in one cycle, executing
no block address. -/
theorem loop_fall_through (memBits : Nat) (mem : Nat → Nat) {s : Exec} {L : Nat}
    (hs : steadyAt mem s L)
    (hop : Decoder.op_code (mem L) = OpCode.LOOP.val)
    (hkeq : s.loop_counter = Decoder.loop_count (mem L))
    (hbits : L + 3 < 2 ^ memBits) :
    steadyAt mem (run memBits mem s 1) (L + 1) ∧
    (run memBits mem s 1).loop_counter = 0 ∧
    (run memBits mem s 1).wants_dfi = s.wants_dfi ∧
    (∀ b, b < L → countExec (fun t => run memBits mem s t) b 1 = 0) := by
  obtain ⟨hf, hpc, hpco, hmd, hmda, hins, hia⟩ := hs
  obtain ⟨f, pc, pco, md, ins, lc, ic, wd, mda, ia⟩ := s
  obtain rfl : f = .RUN := hf
  obtain rfl : pc = L + 2 := hpc
  obtain rfl : pco = L + 1 := hpco
  obtain rfl : md = mem (L + 1) := hmd
  obtain rfl : mda = L + 1 := hmda
  obtain rfl : ins = mem L := hins
  obtain rfl : L = ia := hia.symm
  have hterm : ¬ terminationCond
      ⟨.RUN, L + 2, L + 1, mem (L + 1), mem L, lc, ic, wd, L + 1, L⟩ := by
    rintro ⟨h1, -⟩
    rcases h1 with h1 | h1
    · exact absurd (show L + 2 = 1 from h1) (by omega)
    · exact absurd (h1.1.symm.trans hop) (by decide)
  have hjump : ¬ jump ⟨.RUN, L + 2, L + 1, mem (L + 1), mem L, lc, ic, wd, L + 1, L⟩ :=
    fun hj => hj.2.2.2 hkeq
  have hmod : (L + 2 + 1) % 2 ^ memBits = L + 3 := Nat.mod_eq_of_lt hbits
  have hstep : step memBits mem false false
      ⟨.RUN, L + 2, L + 1, mem (L + 1), mem L, lc, ic, wd, L + 1, L⟩ =
      ⟨.RUN, L + 3, L + 2, mem (L + 2), mem (L + 1), 0, ic, wd, L + 2, L + 1⟩ := by
    simp only [step]
    rw [if_neg hterm, if_pos hop, if_neg (show ¬ lc ≠ Decoder.loop_count (mem L) from
      fun hne => hne hkeq)]
    simp [stall, mem_addr, reset_pc, next_addr, hjump, hmod]
  have h1 : run memBits mem
      ⟨.RUN, L + 2, L + 1, mem (L + 1), mem L, lc, ic, wd, L + 1, L⟩ 1 = _ := hstep
  refine ⟨?_, ?_, ?_, ?_⟩
  · rw [h1]
    exact ⟨rfl, rfl, rfl, rfl, rfl, rfl, rfl⟩
  · rw [h1]
  · rw [h1]
  · intro b hb
    rw [countExec_window _ L 1 (by omega) rfl rfl (fun t ht0 ht1 => by omega) b,
      if_neg (by omega)]

/-- Lemma for C4: traversing a straight-line block of `n` non-LOOP,
non-STOP instructions from a steady `RUN` cycle at `x` reaches a steady
`RUN` cycle at `x + n`, executing each block address exactly once and
nothing else; the loop counter and `wants_dfi` are untouched. -/
theorem block_traverse (memBits : Nat) (mem : Nat → Nat) :
    ∀ (n : Nat) (s : Exec) (x : Nat), steadyAt mem s x →
      (∀ i, i < n → Decoder.op_code (mem (x + i)) ≠ OpCode.LOOP.val ∧
        ¬ Decoder.stop (mem (x + i))) →
      x + n + 2 < 2 ^ memBits →
      ∃ M, steadyAt mem (run memBits mem s M) (x + n) ∧
        (run memBits mem s M).loop_counter = s.loop_counter ∧
        (run memBits mem s M).wants_dfi = s.wants_dfi ∧
        (∀ b, countExec (fun t => run memBits mem s t) b M =
          if x ≤ b ∧ b < x + n then 1 else 0) := by
  intro n
  induction n with
  | zero =>
    intro s x hs hblk hb
    exact ⟨0, hs, rfl, rfl, fun b => by rw [if_neg (by omega)]; rfl⟩
  | succ n ih =>
    intro s x hs hblk hb
    obtain ⟨h0op, h0stop⟩ := hblk 0 (by omega)
    obtain ⟨hs1, hlc1, hwd1, hcnt1⟩ :=
      dfi_advance memBits mem hs h0op h0stop (by omega)
    obtain ⟨M, hs2, hlc2, hwd2, hcnt2⟩ := ih
      (run memBits mem s (max (Decoder.timeslice (mem x)) 1)) (x + 1) hs1
      (fun i hi => by
        have h := hblk (i + 1) (by omega)
        have heq : x + (i + 1) = x + 1 + i := by omega
        rwa [heq] at h)
      (by omega)
    refine ⟨max (Decoder.timeslice (mem x)) 1 + M, ?_, ?_, ?_, ?_⟩
    · rw [run_add]
      have heq : x + (n + 1) = x + 1 + n := by omega
      rw [heq]
      exact hs2
    · rw [run_add, hlc2, hlc1]
    · rw [run_add, hwd2, hwd1]
    · intro b
      rw [countExec_add memBits mem s b (max (Decoder.timeslice (mem x)) 1) M,
        hcnt1 b, hcnt2 b]
      split_ifs <;> omega

/-- Lemma for C4: from a steady `RUN` cycle at the LOOP with `m`
iterations still owed, the executor takes the backward branch `m` times,
executing each of the `loop_jump` preceding addresses exactly `m` times,
and ends on a steady `RUN` cycle at the LOOP with the loop counter equal
to the loop count. -/
theorem loop_iterations (memBits : Nat) (mem : Nat → Nat) :
    ∀ (m : Nat) (s : Exec) (L : Nat), steadyAt mem s L →
      Decoder.op_code (mem L) = OpCode.LOOP.val →
      s.loop_counter + m = Decoder.loop_count (mem L) →
      1 ≤ Decoder.loop_jump (mem L) → Decoder.loop_jump (mem L) ≤ L →
      (∀ a, L - Decoder.loop_jump (mem L) ≤ a → a < L →
        Decoder.op_code (mem a) ≠ OpCode.LOOP.val ∧ ¬ Decoder.stop (mem a)) →
      L + 3 < 2 ^ memBits →
      ∃ M, steadyAt mem (run memBits mem s M) L ∧
        (run memBits mem s M).loop_counter = Decoder.loop_count (mem L) ∧
        (run memBits mem s M).wants_dfi = s.wants_dfi ∧
        (∀ b, L - Decoder.loop_jump (mem L) ≤ b → b < L →
          countExec (fun t => run memBits mem s t) b M = m) := by
  intro m
  induction m with
  | zero =>
    intro s L hs hop hk hJ1 hJL hblk hbits
    exact ⟨0, hs, by show s.loop_counter = Decoder.loop_count (mem L); omega,
      rfl, fun b _ _ => rfl⟩
  | succ m ih =>
    intro s L hs hop hk hJ1 hJL hblk hbits
    obtain ⟨hsB, hlcB, hwdB, hicB, hcntB⟩ :=
      loop_take_branch memBits mem hs hop (by omega) hJ1 hJL hbits
    obtain ⟨Mb, hsT, hlcT, hwdT, hcntT⟩ := block_traverse memBits mem
      (Decoder.loop_jump (mem L)) (run memBits mem s 3)
      (L - Decoder.loop_jump (mem L)) hsB
      (fun i hi => hblk _ (by omega) (by omega))
      (by omega)
    have hLJ : L - Decoder.loop_jump (mem L) + Decoder.loop_jump (mem L) = L := by
      omega
    rw [hLJ] at hsT
    have hcomp : run memBits mem s (3 + Mb) =
        run memBits mem (run memBits mem s 3) Mb := run_add memBits mem s 3 Mb
    have hlc' : (run memBits mem s (3 + Mb)).loop_counter + m =
        Decoder.loop_count (mem L) := by
      rw [hcomp, hlcT, hlcB]
      omega
    obtain ⟨M2, hsF, hlcF, hwdF, hcntF⟩ := ih (run memBits mem s (3 + Mb)) L
      (hcomp ▸ hsT) hop hlc' hJ1 hJL hblk hbits
    refine ⟨3 + Mb + M2, ?_, ?_, ?_, ?_⟩
    · rw [run_add memBits mem s (3 + Mb) M2]
      exact hsF
    · rw [run_add memBits mem s (3 + Mb) M2]
      exact hlcF
    · rw [run_add memBits mem s (3 + Mb) M2, hwdF, hcomp, hwdT, hwdB]
    · intro b hbJ hbL
      rw [countExec_add memBits mem s b (3 + Mb) M2]
      rw [countExec_add memBits mem s b 3 Mb]
      rw [hcntB b, hcntT b, if_neg (by omega), if_pos (by omega)]
      have hfix : countExec
          (fun t => run memBits mem (run memBits mem s (3 + Mb)) t) b M2 = m := by
        exact hcntF b hbJ hbL
      rw [hfix]
      omega

end PayloadExecutor

/-- C4 (amended): when execution reaches, on a steady `RUN` cycle with
`loop_counter = 0`, the first of the `J` instructions immediately
preceding a LOOP with count `N` and jump `J ≥ 1` (the fetcher computes the
branch target as `pc - J - PIPELINE_DELAY`, so the branch rewinds `J`
instructions, not `J + 1`), and none of those `J` instructions is a LOOP
or a STOP, then each of them is executed exactly `N + 1` times in total
before the LOOP — having taken the backward branch `N` times — falls
through, leaving the machine on a steady `RUN` cycle at the instruction
after the LOOP with `loop_counter` cleared; a LOOP with count 0 takes no
branch and falls through directly. -/
theorem c4_amended_loop_block_execution (memBits : Nat) (mem : Nat → Nat)
    (s : PayloadExecutor.Exec) (L : Nat)
    (hop : Decoder.op_code (mem L) = OpCode.LOOP.val)
    (hs : PayloadExecutor.steadyAt mem s (L - Decoder.loop_jump (mem L)))
    (hlc : s.loop_counter = 0)
    (hJ1 : 1 ≤ Decoder.loop_jump (mem L))
    (hJL : Decoder.loop_jump (mem L) ≤ L)
    (hblock : ∀ a, L - Decoder.loop_jump (mem L) ≤ a → a < L →
      Decoder.op_code (mem a) ≠ OpCode.LOOP.val ∧ ¬ Decoder.stop (mem a))
    (hbits : L + 3 < 2 ^ memBits) :
    ∃ M, (∀ a, L - Decoder.loop_jump (mem L) ≤ a → a < L →
        PayloadExecutor.countExec
          (fun t => PayloadExecutor.run memBits mem s t) a M =
          Decoder.loop_count (mem L) + 1) ∧
      PayloadExecutor.steadyAt mem (PayloadExecutor.run memBits mem s M) (L + 1) ∧
      (PayloadExecutor.run memBits mem s M).loop_counter = 0 := by
  obtain ⟨M1, hs1, hlc1, hwd1, hcnt1⟩ := PayloadExecutor.block_traverse memBits mem
    (Decoder.loop_jump (mem L)) s (L - Decoder.loop_jump (mem L)) hs
    (fun i hi => hblock _ (by omega) (by omega)) (by omega)
  have hLJ : L - Decoder.loop_jump (mem L) + Decoder.loop_jump (mem L) = L := by
    omega
  rw [hLJ] at hs1
  obtain ⟨M2, hs2, hlc2, hwd2, hcnt2⟩ := PayloadExecutor.loop_iterations memBits mem
    (Decoder.loop_count (mem L)) (PayloadExecutor.run memBits mem s M1) L hs1 hop
    (by rw [hlc1, hlc]; omega) hJ1 hJL hblock hbits
  obtain ⟨hs3, hlc3, hwd3, hcnt3⟩ := PayloadExecutor.loop_fall_through memBits mem
    hs2 hop hlc2 hbits
  have hcomp : PayloadExecutor.run memBits mem s (M1 + M2) =
      PayloadExecutor.run memBits mem (PayloadExecutor.run memBits mem s M1) M2 :=
    PayloadExecutor.run_add memBits mem s M1 M2
  refine ⟨M1 + M2 + 1, ?_, ?_, ?_⟩
  · intro a haJ haL
    rw [PayloadExecutor.countExec_add memBits mem s a (M1 + M2) 1,
      PayloadExecutor.countExec_add memBits mem s a M1 M2,
      hcnt1 a, if_pos (by omega), hcnt2 a haJ haL, hcomp, hcnt3 a haL]
    omega
  · rw [PayloadExecutor.run_add memBits mem s (M1 + M2) 1, hcomp]
    exact hs3
  · rw [PayloadExecutor.run_add memBits mem s (M1 + M2) 1, hcomp]
    exact hlc3

/-- C4, witness: the amended theorem evaluated on the two-instruction
block preceding a `LOOP count=2 jump=2`. -/
theorem c4_amended_loop_block_execution_witness :
    (Decoder.op_code (memW4 2) = OpCode.LOOP.val ∧
      1 ≤ Decoder.loop_jump (memW4 2) ∧ Decoder.loop_jump (memW4 2) ≤ 2 ∧
      2 + 3 < 2 ^ 3) ∧
    (∃ M, (∀ a, 2 - Decoder.loop_jump (memW4 2) ≤ a → a < 2 →
        PayloadExecutor.countExec
          (fun t => PayloadExecutor.run 3 memW4
            ⟨.RUN, 2, 1, 13, 12, 0, 0, true, 1, 0⟩ t) a M =
          Decoder.loop_count (memW4 2) + 1) ∧
      PayloadExecutor.steadyAt memW4
        (PayloadExecutor.run 3 memW4 ⟨.RUN, 2, 1, 13, 12, 0, 0, true, 1, 0⟩ M)
        (2 + 1) ∧
      (PayloadExecutor.run 3 memW4
        ⟨.RUN, 2, 1, 13, 12, 0, 0, true, 1, 0⟩ M).loop_counter = 0) :=
  ⟨⟨by decide, by decide, by decide, by decide⟩,
   c4_amended_loop_block_execution 3 memW4 ⟨.RUN, 2, 1, 13, 12, 0, 0, true, 1, 0⟩ 2
     (by decide) ⟨rfl, rfl, rfl, rfl, rfl, rfl, rfl⟩ rfl (by decide) (by decide)
     (by
       intro a h1 h2
       interval_cases a
       · exact ⟨by decide, by decide⟩
       · exact ⟨by decide, by decide⟩)
     (by decide)⟩
